import Mathlib

/-!
Verification development for the pbi-autogov repository.

The definitions below are a shallow embedding of the two core source files:
`src/skills/optimization_pipeline.py` (the usage-based removal-decision
pipeline, Functions 1-6 plus the SQL generators) and
`src/skills/tmdl_cleanup.py` (the structural-dependency protector and the
cascading TMDL mutator).  Pandas dataframes are embedded as lists of records,
Excel cells as strings (a blank string models an empty/NaN cell wherever the
source normalises NaN to "" via `fillna`/`pd.notna` guards), file systems as
association lists from table name to the list of lines of the `.tmdl` file,
and Python exceptions as `Except String`.  Regular expressions from the
source are embedded as hand-rolled character-list matchers; each matcher's
doc comment quotes the regex it implements.
-/

namespace PBIAutoGov

/-- The apostrophe character (TMDL quotes names with it). -/
def quoteC : Char := Char.ofNat 39

/-- One-character string holding `quoteC`. -/
def qS : String := String.singleton quoteC

/-- Python's whitespace class: the ASCII characters matched by `\s` and
stripped by `str.strip()` (space, tab, newline, carriage return, vertical
tab, form feed). -/
def pyWs (c : Char) : Bool :=
  c = ' ' || c = '\t' || c = '\n' || c = '\r' || c.toNat = 11 || c.toNat = 12

/-- Drop leading and trailing `pyWs` characters, as Python `str.strip()`. -/
def stripChars (cs : List Char) : List Char :=
  ((cs.dropWhile pyWs).reverse.dropWhile pyWs).reverse

/-- Python `str.strip()` on a string. -/
def pyStrip (s : String) : String := String.mk (stripChars s.toList)

/-- Python `str.lower()` (ASCII model). -/
def pyLower (s : String) : String := String.mk (s.toList.map Char.toLower)

/-- Python `str.strip("'")`: drop leading and trailing apostrophes. -/
def stripQuotes (s : String) : String :=
  String.mk (((s.toList.dropWhile (· = quoteC)).reverse.dropWhile (· = quoteC)).reverse)

/-- Python `str.lstrip("\t")`: drop leading tabs. -/
def lstripTabs (s : String) : String := String.mk (s.toList.dropWhile (· = '\t'))

/-- Replace every newline with a space (`str.replace("\n", " ")`). -/
def replNl (s : String) : String :=
  String.mk (s.toList.map (fun c => if c = '\n' then ' ' else c))

/-- Collapse every run of whitespace into a single space (`re.sub(r"\s+", " ", x)`). -/
def collapseWsAux : Bool → List Char → List Char
  | _, [] => []
  | inWs, c :: cs =>
    if pyWs c then
      if inWs then collapseWsAux true cs else ' ' :: collapseWsAux true cs
    else c :: collapseWsAux false cs

/-- Collapse every run of whitespace into a single space, tracking whether
the previous character was whitespace so each run emits one space. -/
def collapseWs (cs : List Char) : List Char := collapseWsAux false cs

/-- List-prefix test (`cs` starts with `pat`). -/
def isPre : List Char → List Char → Bool
  | [], _ => true
  | _ :: _, [] => false
  | a :: as, b :: bs => a = b && isPre as bs

/-- Python substring test `pat in s`. -/
def containsSub (s pat : String) : Bool :=
  (List.range (s.toList.length + 1)).any (fun i => isPre pat.toList (s.toList.drop i))

/-- Remove a trailing `\s*\?\s*$` occurrence, i.e. `re.sub(r"\s*\?\s*$", "", s)`:
strip trailing whitespace, drop one question mark if present, then strip the
whitespace that preceded it; if no question mark ends the string (after
trailing whitespace) the string is unchanged. -/
def removeTrailingQm (s : String) : String :=
  match s.toList.reverse.dropWhile pyWs with
  | c :: rest => if c = '?' then String.mk ((rest.dropWhile pyWs).reverse) else s
  | [] => s

/-- Embeds `normalize_key`: replace newlines with spaces, strip, collapse
whitespace runs, lowercase, and remove a trailing question mark. -/
def normalizeKey (s : String) : String :=
  removeTrailingQm (pyLower (String.mk (collapseWs (stripChars (replNl s).toList))))

/-- Python `\w` word-character class (ASCII model): letters, digits, underscore. -/
def wordChar (c : Char) : Bool := c.isAlphanum || c = '_'

/-- The regex `\bpat\b` matches `cs` at position `i` (for a pattern made of
word characters): `pat` occurs at `i`, the previous character (if any) is not
a word character, and the character after the occurrence (if any) is not a
word character. -/
def wordAt (cs pat : List Char) (i : Nat) : Bool :=
  isPre pat (cs.drop i)
  && (decide (i = 0) || !wordChar (cs.getD (i - 1) ' '))
  && !wordChar (cs.getD (i + pat.length) ' ')

/-- `re.search(r"\bpat\b", s)` succeeds (word-boundary-delimited occurrence). -/
def containsWordB (s pat : String) : Bool :=
  (List.range (s.toList.length + 1)).any (fun i => wordAt s.toList pat.toList i)

/-- Split a string at the first occurrence of `sep` (`s.split(sep, 1)`);
`none` when `sep` does not occur, mirroring the `len(parts) == 2` test. -/
def splitOnce (sep s : String) : Option (String × String) :=
  match (List.range (s.toList.length + 1)).find?
      (fun i => isPre sep.toList (s.toList.drop i)) with
  | some i => some (String.mk (s.toList.take i),
                    String.mk (s.toList.drop (i + sep.toList.length)))
  | none => none

/-! ## Function 1: report field usage — usage-kind classification -/

/-- The four per-row usage-kind indicator columns built by
`function1_report_field_usage` (0/1 integers, later summed per key). -/
structure UsageFlags where
  slicer : Nat
  visual : Nat
  filterKind : Nat
  measure : Nat
deriving DecidableEq, Repr

/-- Embeds the classification step of `function1_report_field_usage`
(optimization_pipeline.py lines 117-124): the usage label is lowercased, the
Slicer/Visual/Filter indicators come from `str.contains(r"\bslicer\b")` etc.,
and the Measure indicator is `contains(r"\(measure\)") | formula.notna()`.
`measureFormula = none` models a NaN cell (or an absent column). -/
def classifyUsage (usage : String) (measureFormula : Option String) : UsageFlags :=
  let u := pyLower usage
  { slicer := if containsWordB u "slicer" then 1 else 0
    visual := if containsWordB u "visual" then 1 else 0
    filterKind := if containsWordB u "filter" then 1 else 0
    measure := if containsSub u "(measure)" || measureFormula.isSome then 1 else 0 }

/-! ## Function 2: relationship columns resolver -/

/-- A row of the catalog `Relations` sheet (endpoint identifiers). -/
structure RelRow where
  fromTable : Int
  fromCol : Int
  toTable : Int
  toCol : Int
deriving DecidableEq, Repr

/-- A resolved relationship row (identifiers replaced by names). -/
structure ResolvedRel where
  fromTableName : String
  fromColName : String
  toTableName : String
  toColName : String
deriving DecidableEq, Repr, Inhabited

/-- Embeds `dict(zip(ids, names))` followed by `.map`: lookup in which a
later duplicate key overwrites an earlier one. -/
def dictLookup (l : List (Int × String)) (k : Int) : Option String :=
  (l.reverse.find? (fun p => p.1 = k)).map (·.2)

/-- Resolve the four endpoints of one relationship row; `none` when any
endpoint identifier has no mapping (pandas `.map` produces NaN there). -/
def resolveRel (tbl cols : List (Int × String)) (r : RelRow) : Option ResolvedRel :=
  match dictLookup tbl r.fromTable, dictLookup cols r.fromCol,
        dictLookup tbl r.toTable, dictLookup cols r.toCol with
  | some a, some b, some c, some d => some ⟨a, b, c, d⟩
  | _, _, _, _ => none

/-- The exact message of the `ValueError` raised by
`function2_relationship_columns_resolver`. -/
def function2ErrorMsg : String :=
  "Some relationship IDs could not be resolved (missing TableID/ColumnID mapping)."

/-- Embeds `function2_relationship_columns_resolver` (lines 153-179): build
the resolved frame by dictionary lookup, then raise one `ValueError` if any
cell is NaN; otherwise return all rows resolved. -/
def function2_relationship_columns_resolver (tbl cols : List (Int × String))
    (rels : List RelRow) : Except String (List ResolvedRel) :=
  if rels.any (fun r => (resolveRel tbl cols r).isNone) then
    .error function2ErrorMsg
  else
    .ok (rels.filterMap (resolveRel tbl cols))

/-! ## Semantic master and Function 3: flag columns used in PBI -/

/-- A row of the catalog `Columns` sheet.  `sourceColumn = ""` models a
blank/NaN cell (the source normalises NaN to `""` via `fillna` before every
use of this field). -/
structure CatColumn where
  colId : Int
  explicitName : String
  sourceColumn : String
  tableId : Int
deriving DecidableEq, Repr

/-- A row of the semantic column universe built by
`build_semantic_master_from_gold`. -/
structure SMRow where
  colId : Int
  colName : String
  sourceColumn : String
  tableId : Int
  tableName : String
  keyColumn : String
  keyNorm : String
deriving DecidableEq, Repr

/-- Embeds `build_semantic_master_from_gold` (lines 59-81): left-merge the
columns sheet with the tables sheet on `TableID` (a column row is paired
with every table row sharing its id, as `DataFrame.merge` does), raise when
some column's table id has no match, and build
`Key_Column = TableName.strip() ++ "$$" ++ ColumnName.strip()` plus its
normalized form. -/
def build_semantic_master (tables : List (Int × String)) (cols : List CatColumn) :
    Except String (List SMRow) :=
  if cols.any (fun c => (tables.filter (fun p => p.1 = c.tableId)).isEmpty) then
    .error "Some columns could not be mapped to TableName."
  else
    .ok (cols.flatMap (fun c =>
      (tables.filter (fun p => p.1 = c.tableId)).map (fun p =>
        let key := pyStrip p.2 ++ "$$" ++ pyStrip c.explicitName
        ⟨c.colId, c.explicitName, c.sourceColumn, c.tableId, p.2, key, normalizeKey key⟩)))

/-- The set of bare column/measure names extracted from the Function 1 usage
keys: for every normalized key containing `$$`, the part after the first
`$$`, stripped (lines 212-216). -/
def f1ColNames (usedKeysNorm : List String) : List String :=
  usedKeysNorm.filterMap (fun k => (splitOnce "$$" k).map (fun p => pyStrip p.2))

/-- Embeds the per-column `Used_in_PBI` computation of
`function3_flag_columns_used_in_pbi` (lines 198-219): the primary pass tests
membership of the column's normalized key in the Function 1 key set; the
secondary pass sets the flag for rows that are measures
(`SourceColumn == "[Measure]"`), are not yet matched, and whose stripped
lowercased name appears among the Function 1 bare names. -/
def function3Used (usedKeysNorm : List String) (r : SMRow) : Bool :=
  let pass1 := usedKeysNorm.contains r.keyNorm
  let isMeasure := pyStrip r.sourceColumn = "[Measure]"
  let nameNorm := pyLower (pyStrip r.colName)
  pass1 || (isMeasure && !pass1 && (f1ColNames usedKeysNorm).contains nameNorm)

/-- Embeds `function3_flag_columns_used_in_pbi` at the row level: normalize
the raw Function 1 keys (`normalize_key`), deduplicate them
(`set(...unique())`), and flag every semantic-master row. -/
def function3_flag_columns_used_in_pbi (f1Keys : List String) (master : List SMRow) :
    List (SMRow × Bool) :=
  let usedKeysNorm := (f1Keys.map normalizeKey).dedup
  master.map (fun r => (r, function3Used usedKeysNorm r))

/-! ## Function 5: flag columns to remove -/

/-- A row of the Function 3 output consumed by Function 5 (the fields
`function5_flag_columns_to_remove` requires). -/
structure F3Row where
  colId : Int
  tableName : String
  colName : String
  sourceColumn : String
  usedPBI : Int
deriving DecidableEq, Repr

/-- A row of the Function 4 output consumed by Function 5. -/
structure F4Row where
  colId : Int
  usedRel : Int
deriving DecidableEq, Repr

/-- A row of the Function 5 output. -/
structure F5Row where
  colId : Int
  tableName : String
  colName : String
  sourceColumn : String
  usedPBI : Int
  usedRel : Int
  removeCol : String
  protectedFlag : String
deriving DecidableEq, Repr

/-- Normalize a protection input set as Function 5 does: `str(x).strip().lower()`
for every element, keeping only non-blank entries. -/
def normProtSet (l : List String) : List String :=
  (l.map (fun t => pyLower (pyStrip t))).filter (fun t => t ≠ "")

/-- Embeds `function5_flag_columns_to_remove` (lines 334-394): left-merge
Function 3 and Function 4 output on `ColumnID` (raising when a column has no
`Used_in_Relationship`), set `Remove_column = "Yes"` exactly when both
liveness counters are zero, then compute `Protected` from the normalized
security-table and view-column sets and force `Remove_column = "No"` on
protected rows. -/
def function5_flag_columns_to_remove (f3 : List F3Row) (f4 : List F4Row)
    (protectedViewColumns protectedSecurityTables : List String) :
    Except String (List F5Row) :=
  if f3.any (fun r => (f4.filter (fun s => s.colId = r.colId)).isEmpty) then
    .error "Merge issue: some columns missing Used_in_Relationship."
  else
    let protTables := normProtSet protectedSecurityTables
    let protCols := normProtSet protectedViewColumns
    .ok ((f3.flatMap (fun r =>
      (f4.filter (fun s => s.colId = r.colId)).map (fun s => (r, s.usedRel)))).map
      (fun m =>
        let remove0 : String := if m.1.usedPBI = 0 ∧ m.2 = 0 then "Yes" else "No"
        let tNorm := pyLower (pyStrip m.1.tableName)
        let kNorm := tNorm ++ "$$" ++ pyLower (pyStrip m.1.colName)
        let prot := protTables.contains tNorm || protCols.contains kNorm
        { colId := m.1.colId, tableName := m.1.tableName, colName := m.1.colName
          sourceColumn := m.1.sourceColumn, usedPBI := m.1.usedPBI, usedRel := m.2
          removeCol := if prot then "No" else remove0
          protectedFlag := if prot then "Yes" else "No" }))

/-! ## Function 6: flag tables to remove -/

/-- Lexicographic (code-point) order on character lists, as Python string
comparison. -/
def lexLt : List Char → List Char → Bool
  | [], [] => false
  | [], _ :: _ => true
  | _ :: _, [] => false
  | a :: as, b :: bs =>
    if a.toNat < b.toNat then true
    else if b.toNat < a.toNat then false
    else lexLt as bs

/-- Insert a string into a sorted list (insertion step of the sort used to
model the sorted iteration order of `groupby` and `sorted(...)`). -/
def insertSorted (x : String) : List String → List String
  | [] => [x]
  | y :: ys => if lexLt y.toList x.toList then y :: insertSorted x ys else x :: y :: ys

/-- Sort a list of strings in Python's ascending code-point order. -/
def sortStrings (l : List String) : List String := l.foldr insertSorted []

/-- Embeds `function6_flag_tables_to_remove` (lines 401-446): group the
Function 5 output by (exact) `TableName`, set `Remove_table = "Yes"` iff
every row of the group has `Remove_column` equal to `"yes"` after
strip/lower, override to `"No"` for tables whose normalized name is in the
protected security set, and return the summary together with the kept-tables
set (`Remove_table == "No"`). -/
def function6_flag_tables_to_remove (f5 : List F5Row)
    (protectedSecurityTables : List String) :
    List (String × String) × List String :=
  let names := sortStrings (f5.map (·.tableName)).dedup
  let protNorm := normProtSet protectedSecurityTables
  let summary := names.map (fun t =>
    let removeAll := (f5.filter (fun r => r.tableName = t)).all
      (fun r => pyLower (pyStrip r.removeCol) = "yes")
    (t, if removeAll && !(protNorm.contains (pyLower (pyStrip t))) then "Yes" else "No"))
  (summary, (summary.filter (fun p => p.2 = "No")).map (·.1))

/-! ## DROP COLUMN SQL generator -/

/-- Embeds `generate_drop_column_sql` (lines 482-530): strip `TableName`,
keep rows whose (stripped) table is in the kept-tables set, whose
`Remove_column` is `"yes"` after strip/lower, and whose stripped
`SourceColumn` is neither blank nor `"[Measure]"`; emit
`ALTER TABLE [schema].[table] DROP COLUMN [source];` using the stripped
`SourceColumn` as the physical column name.  Returns
(TableName, ColumnName, Drop_SQL) triples. -/
def generate_drop_column_sql (f5 : List F5Row) (schema : String)
    (keptTables : List String) : List (String × String × String) :=
  ((((f5.map (fun r => { r with tableName := pyStrip r.tableName })).filter
      (fun r => keptTables.contains r.tableName)).filter
      (fun r => pyLower (pyStrip r.removeCol) = "yes")).filter
      (fun r => pyStrip r.sourceColumn ≠ "" && pyStrip r.sourceColumn ≠ "[Measure]")).map
    (fun r =>
      (r.tableName, r.colName,
        "ALTER TABLE [" ++ schema ++ "].[" ++ r.tableName ++ "] DROP COLUMN ["
          ++ pyStrip r.sourceColumn ++ "];"))

/-! ## Shared helper lemmas -/

lemma range_any_iff (n : Nat) (f : Nat → Bool) :
    (List.range n).any f = true ↔ ∃ i < n, f i = true := by
  simp [List.any_eq_true, List.mem_range]

lemma contains_iff_mem (l : List String) (a : String) : l.contains a = true ↔ a ∈ l := by
  simp [List.contains, List.elem_iff]

lemma ite_one_zero_eq_one (b : Bool) : (if b = true then (1 : Nat) else 0) = 1 ↔ b = true := by
  cases b <;> simp

lemma ite_yes_no_eq_yes (p : Prop) [Decidable p] :
    (if p then ("Yes" : String) else "No") = "Yes" ↔ p := by
  by_cases h : p <;> simp [h]

lemma filterMap_all_some {α β : Type} [Inhabited β] (f : α → Option β) (l : List α)
    (h : ∀ a ∈ l, (f a).isSome = true) :
    (l.filterMap f).length = l.length ∧
    ∀ i, (hi : i < l.length) → f (l.get ⟨i, hi⟩) = some ((l.filterMap f).getD i default) := by
  induction l with
  | nil => simp
  | cons a as ih =>
    obtain ⟨b, hb⟩ := Option.isSome_iff_exists.mp (h a (by simp))
    have ih' := ih (fun x hx => h x (by simp [hx]))
    refine ⟨by simp [List.filterMap_cons, hb, ih'.1], ?_⟩
    intro i hi
    cases i with
    | zero => simp [List.filterMap_cons, hb]
    | succ n =>
      simpa [List.filterMap_cons, hb] using ih'.2 n (by simpa using hi)

/-! ## Claim C8 -/

/-- C8 counterexample: the claim says a row is counted under Slicer exactly
when its label contains the substring "slicer", and under Measure exactly
when the label contains "(measure)" or the formula field is non-empty.  The
label "slicers" contains the substring "slicer" yet is not counted as a
slicer usage (the code requires a word-boundary match), and a row with a
blank (but present) formula string and no "(measure)" tag is counted as a
measure usage (the code tests `notna`, not non-emptiness). -/
theorem c8_counterexample :
    containsSub (pyLower "slicers") "slicer" = true
    ∧ (classifyUsage "slicers" none).slicer = 0
    ∧ containsSub (pyLower "visual thing") "(measure)" = false
    ∧ pyStrip "" = ""
    ∧ (classifyUsage "visual thing" (some "")).measure = 1 := by
  decide

/-- C8 (amended): in `function1_report_field_usage`, a usage row is counted
under the Slicer, Visual, and Filter kinds exactly when its lowercased
usage-kind label contains the corresponding substring delimited by word
boundaries, and under the Measure kind exactly when the label contains
"(measure)" or the row's formula field is present (non-null), even if
blank. -/
theorem c8_usage_classification (usage : String) (mf : Option String) :
    ((classifyUsage usage mf).slicer = 1 ↔
      ∃ i < (pyLower usage).toList.length + 1,
        wordAt (pyLower usage).toList "slicer".toList i = true)
    ∧ ((classifyUsage usage mf).visual = 1 ↔
      ∃ i < (pyLower usage).toList.length + 1,
        wordAt (pyLower usage).toList "visual".toList i = true)
    ∧ ((classifyUsage usage mf).filterKind = 1 ↔
      ∃ i < (pyLower usage).toList.length + 1,
        wordAt (pyLower usage).toList "filter".toList i = true)
    ∧ ((classifyUsage usage mf).measure = 1 ↔
      ((∃ i < (pyLower usage).toList.length + 1,
        isPre "(measure)".toList ((pyLower usage).toList.drop i) = true)
       ∨ mf.isSome = true)) := by
  unfold classifyUsage
  refine ⟨?_, ?_, ?_, ?_⟩ <;>
    · rw [ite_one_zero_eq_one]
      simp only [containsWordB, containsSub, range_any_iff, Bool.or_eq_true]

/-- C8 witness: the amended characterization evaluated at a concrete row. -/
theorem c8_witness :
    (classifyUsage "Slicer (Measure)" none).measure = 1 ↔
      ((∃ i < (pyLower "Slicer (Measure)").toList.length + 1,
        isPre "(measure)".toList ((pyLower "Slicer (Measure)").toList.drop i) = true)
       ∨ (none : Option String).isSome = true) :=
  (c8_usage_classification "Slicer (Measure)" none).2.2.2

/-! ## Claim C9 -/

/-- C9 counterexample: the claim says that on failure the resolver reports
all unresolved rows together; in fact the raised error is a fixed message
that names none of the unresolved identifiers.  Here the (only) relationship
row has endpoints 42/7/3/9, none of which has a mapping, and the error text
mentions none of them. -/
theorem c9_counterexample :
    function2_relationship_columns_resolver [] [] [⟨42, 7, 3, 9⟩] =
      .error function2ErrorMsg
    ∧ containsSub function2ErrorMsg "42" = false
    ∧ containsSub function2ErrorMsg "7" = false
    ∧ containsSub function2ErrorMsg "3" = false
    ∧ containsSub function2ErrorMsg "9" = false :=
  ⟨rfl, by decide, by decide, by decide, by decide⟩

/-- C9 (amended): `function2_relationship_columns_resolver` raises a
resolution error if and only if some relationship endpoint identifier has no
name mapping; the error is raised once after mapping every row (not one row
at a time), but it is a fixed summary message that does not enumerate the
unresolved rows; on success it returns every relationship row, in order,
with the four endpoint identifiers replaced by the corresponding table and
column names. -/
theorem c9_resolver (tbl cols : List (Int × String)) (rels : List RelRow) :
    ((∃ e, function2_relationship_columns_resolver tbl cols rels = .error e) ↔
      ∃ r ∈ rels,
        (dictLookup tbl r.fromTable).isNone = true
        ∨ (dictLookup cols r.fromCol).isNone = true
        ∨ (dictLookup tbl r.toTable).isNone = true
        ∨ (dictLookup cols r.toCol).isNone = true)
    ∧ (∀ e, function2_relationship_columns_resolver tbl cols rels = .error e →
        e = function2ErrorMsg)
    ∧ (∀ out, function2_relationship_columns_resolver tbl cols rels = .ok out →
        out.length = rels.length ∧
        ∀ i, (hi : i < rels.length) →
          resolveRel tbl cols (rels.get ⟨i, hi⟩) = some (out.getD i default)) := by
  have hnone : ∀ r : RelRow, (resolveRel tbl cols r).isNone = true ↔
      ((dictLookup tbl r.fromTable).isNone = true
        ∨ (dictLookup cols r.fromCol).isNone = true
        ∨ (dictLookup tbl r.toTable).isNone = true
        ∨ (dictLookup cols r.toCol).isNone = true) := by
    intro r
    unfold resolveRel
    cases dictLookup tbl r.fromTable <;> cases dictLookup cols r.fromCol <;>
      cases dictLookup tbl r.toTable <;> cases dictLookup cols r.toCol <;> simp
  unfold function2_relationship_columns_resolver
  by_cases hc : rels.any (fun r => (resolveRel tbl cols r).isNone) = true
  · refine ⟨?_, ?_, ?_⟩
    · simp only [if_pos hc]
      constructor
      · intro _
        obtain ⟨r, hr, hn⟩ := List.any_eq_true.mp hc
        exact ⟨r, hr, (hnone r).mp hn⟩
      · intro _
        exact ⟨function2ErrorMsg, rfl⟩
    · intro e he
      rw [if_pos hc] at he
      exact (Except.error.injEq _ _).mp he.symm
    · intro out hout
      rw [if_pos hc] at hout
      exact absurd hout (by simp)
  · have hall : ∀ r ∈ rels, (resolveRel tbl cols r).isSome = true := by
      intro r hr
      cases h : resolveRel tbl cols r with
      | none => exact absurd (List.any_eq_true.mpr ⟨r, hr, by simp [h]⟩) hc
      | some v => simp
    refine ⟨?_, ?_, ?_⟩
    · simp only [if_neg hc]
      constructor
      · rintro ⟨e, he⟩
        exact absurd he (by simp)
      · rintro ⟨r, hr, hn⟩
        exact absurd ((hnone r).mpr hn)
          (by simpa using (Option.isSome_iff_ne_none.mp (hall r hr)))
    · intro e he
      rw [if_neg hc] at he
      exact absurd he (by simp)
    · intro out hout
      rw [if_neg hc] at hout
      have hout' : out = rels.filterMap (resolveRel tbl cols) :=
        ((Except.ok.injEq _ _).mp hout).symm
      subst hout'
      exact filterMap_all_some _ _ hall

/-- C9 witness: the resolver at a concrete catalog with one resolvable
relationship row, with the theorem's success hypothesis discharged there. -/
theorem c9_witness :
    ([(⟨"Orders", "CustomerID", "Customers", "ID"⟩ : ResolvedRel)].length =
      [(⟨1, 10, 2, 20⟩ : RelRow)].length) ∧
    ∀ i, (hi : i < [(⟨1, 10, 2, 20⟩ : RelRow)].length) →
      resolveRel [(1, "Orders"), (2, "Customers")] [(10, "CustomerID"), (20, "ID")]
          ([(⟨1, 10, 2, 20⟩ : RelRow)].get ⟨i, hi⟩) =
        some ([(⟨"Orders", "CustomerID", "Customers", "ID"⟩ : ResolvedRel)].getD i default) :=
  (c9_resolver [(1, "Orders"), (2, "Customers")] [(10, "CustomerID"), (20, "ID")]
      [⟨1, 10, 2, 20⟩]).2.2
    [⟨"Orders", "CustomerID", "Customers", "ID"⟩] rfl

/-! ## Claim C7 -/

/-- C7: in `function3_flag_columns_used_in_pbi`, a column's `Used_in_PBI`
flag is true if and only if its normalized `Table$$Column` key appears among
the (normalized) Function 1 usage keys, or — only when the catalog marks the
item as a measure (`SourceColumn == "[Measure]"`) — its bare normalized name
equals the column part of some Function 1 usage key; the name-only widening
is never applied to non-measure columns. -/
theorem c7_used_in_pbi (f1Keys : List String) (master : List SMRow) (r : SMRow) (b : Bool)
    (h : (r, b) ∈ function3_flag_columns_used_in_pbi f1Keys master) :
    (b = true ↔
      r.keyNorm ∈ f1Keys.map normalizeKey
      ∨ (pyStrip r.sourceColumn = "[Measure]"
         ∧ pyLower (pyStrip r.colName) ∈ f1ColNames ((f1Keys.map normalizeKey).dedup)))
    ∧ (pyStrip r.sourceColumn ≠ "[Measure]" →
        (b = true ↔ r.keyNorm ∈ f1Keys.map normalizeKey)) := by
  obtain ⟨r', hr', heq⟩ := List.mem_map.mp h
  have hr2 : r' = r := congrArg Prod.fst heq
  have hb : b = function3Used ((f1Keys.map normalizeKey).dedup) r := by
    rw [← hr2]
    exact (congrArg Prod.snd heq).symm
  subst hb
  unfold function3Used
  by_cases hp : r.keyNorm ∈ f1Keys.map normalizeKey <;>
    by_cases hm : pyStrip r.sourceColumn = "[Measure]" <;>
      by_cases hn : pyLower (pyStrip r.colName) ∈ f1ColNames ((f1Keys.map normalizeKey).dedup) <;>
        simp [hp, hm, hn, contains_iff_mem, List.mem_dedup]

/-- C7 witness: a measure attributed to a different table in the report is
flagged used by the name-only pass. -/
theorem c7_witness :
    ((true : Bool) = true ↔
      ("opportunities$$goal" : String) ∈ ["Owners$$Goal"].map normalizeKey
      ∨ (pyStrip "[Measure]" = "[Measure]"
         ∧ pyLower (pyStrip "Goal") ∈ f1ColNames ((["Owners$$Goal"].map normalizeKey).dedup)))
    ∧ (pyStrip "[Measure]" ≠ "[Measure]" →
        ((true : Bool) = true ↔
          ("opportunities$$goal" : String) ∈ ["Owners$$Goal"].map normalizeKey)) :=
  c7_used_in_pbi ["Owners$$Goal"]
    [⟨5, "Goal", "[Measure]", 2, "Opportunities", "Opportunities$$Goal", "opportunities$$goal"⟩]
    ⟨5, "Goal", "[Measure]", 2, "Opportunities", "Opportunities$$Goal", "opportunities$$goal"⟩
    true (by decide)

/-! ## Claim C2 -/

/-- The protection predicate applied by Function 5 to a row: the normalized
table name is in the normalized security-table set, or the normalized
`table$$column` key is in the normalized view-column set. -/
def f5Protected (protectedViewColumns protectedSecurityTables : List String)
    (tableName colName : String) : Prop :=
  pyLower (pyStrip tableName) ∈ normProtSet protectedSecurityTables
  ∨ (pyLower (pyStrip tableName) ++ "$$" ++ pyLower (pyStrip colName))
      ∈ normProtSet protectedViewColumns

instance (pv ps : List String) (t c : String) : Decidable (f5Protected pv ps t c) := by
  unfold f5Protected
  infer_instance

/-- C2: in `function5_flag_columns_to_remove`, for every output row,
`Remove_column = "Yes"` exactly when `Used_in_PBI = 0`, `Used_in_Relationship
= 0` and the column is not protected; a protected row (table in the
security-table set or key in the view-column set) gets `Protected = "Yes"`
and `Remove_column = "No"` regardless of the two liveness flags. -/
theorem c2_remove_flag (f3 : List F3Row) (f4 : List F4Row) (pv ps : List String)
    (out : List F5Row) (h : function5_flag_columns_to_remove f3 f4 pv ps = .ok out)
    (row : F5Row) (hrow : row ∈ out) :
    (row.removeCol = "Yes" ↔
      row.usedPBI = 0 ∧ row.usedRel = 0 ∧ ¬f5Protected pv ps row.tableName row.colName)
    ∧ (f5Protected pv ps row.tableName row.colName →
        row.protectedFlag = "Yes" ∧ row.removeCol = "No")
    ∧ (¬f5Protected pv ps row.tableName row.colName → row.protectedFlag = "No") := by
  unfold function5_flag_columns_to_remove at h
  by_cases hc : f3.any (fun r => (f4.filter (fun s => s.colId = r.colId)).isEmpty) = true
  · rw [if_pos hc] at h
    exact absurd h (by simp)
  · rw [if_neg hc] at h
    injection h with h
    subst h
    obtain ⟨m, hm, hmk⟩ := List.mem_map.mp hrow
    subst hmk
    by_cases hprot : f5Protected pv ps m.1.tableName m.1.colName
    · have hp' := hprot
      unfold f5Protected at hp'
      refine ⟨?_, ?_, ?_⟩ <;> simp [hp', hprot]
    · have hp' := hprot
      unfold f5Protected at hp'
      refine ⟨?_, ?_, ?_⟩
      · simp [hp', hprot, ite_yes_no_eq_yes]
      · intro hcon
        exact absurd hcon hprot
      · intro _
        simp [hp']

/-- Concrete Function 5 output row used by the C2 witness: a
security-protected column with both liveness flags zero. -/
def exRowC2 : F5Row := ⟨1, "Sec", "K", "K", 0, 0, "No", "Yes"⟩

/-- C2 witness: a protected row with both liveness flags zero keeps
`Remove_column = "No"` and `Protected = "Yes"`. -/
theorem c2_witness :
    (exRowC2.removeCol = "Yes" ↔
      exRowC2.usedPBI = 0 ∧ exRowC2.usedRel = 0
        ∧ ¬f5Protected [] ["Sec"] exRowC2.tableName exRowC2.colName)
    ∧ (f5Protected [] ["Sec"] exRowC2.tableName exRowC2.colName →
        exRowC2.protectedFlag = "Yes" ∧ exRowC2.removeCol = "No")
    ∧ (¬f5Protected [] ["Sec"] exRowC2.tableName exRowC2.colName →
        exRowC2.protectedFlag = "No") :=
  c2_remove_flag [⟨1, "Sec", "K", "K", 0⟩] [⟨1, 0⟩] [] ["Sec"] [exRowC2] rfl
    exRowC2 (by decide)

/-! ## Claim C5 -/

/-- C5: in `function6_flag_tables_to_remove`, a table's `Remove_table` is
"Yes" if and only if every one of its Function 5 rows has a `Remove_column`
equal to "yes" after strip/lower and the table is not in the protected
security-table set; the returned kept-tables set is exactly the set of
tables with `Remove_table = "No"`. -/
theorem c5_table_rollup (f5 : List F5Row) (ps : List String) :
    (∀ t flag, (t, flag) ∈ (function6_flag_tables_to_remove f5 ps).1 →
      (flag = "Yes" ↔
        (∀ r ∈ f5, r.tableName = t → pyLower (pyStrip r.removeCol) = "yes")
        ∧ pyLower (pyStrip t) ∉ normProtSet ps))
    ∧ (∀ t, t ∈ (function6_flag_tables_to_remove f5 ps).2 ↔
        (t, "No") ∈ (function6_flag_tables_to_remove f5 ps).1) := by
  constructor
  · intro t flag hmem
    obtain ⟨t', _, heq⟩ := List.mem_map.mp hmem
    have h1 : t' = t := congrArg Prod.fst heq
    subst h1
    have h2 := (congrArg Prod.snd heq).symm
    subst h2
    by_cases hall : (f5.filter (fun r => r.tableName = t')).all
        (fun r => pyLower (pyStrip r.removeCol) = "yes") = true <;>
      by_cases hp : (normProtSet ps).contains (pyLower (pyStrip t')) = true <;>
        simp_all [List.all_eq_true, List.mem_filter, contains_iff_mem, imp_iff_not_or]
  · intro t
    unfold function6_flag_tables_to_remove
    simp only [List.mem_map, List.mem_filter]
    constructor
    · rintro ⟨⟨t', flag⟩, ⟨hmem, hno⟩, rfl⟩
      simpa [show flag = "No" from by simpa using hno] using hmem
    · intro hmem
      exact ⟨(t, "No"), ⟨hmem, by simp⟩, rfl⟩

/-- Concrete Function 5 output row used by the C5 witness: a fully removable
column of an unprotected table. -/
def exRowC5 : F5Row := ⟨1, "T", "C", "C", 0, 0, "Yes", "No"⟩

/-- C5 witness: a table whose single column row is flagged for removal and
which is not protected gets `Remove_table = "Yes"`. -/
theorem c5_witness :
    ("Yes" : String) = "Yes" ↔
      (∀ r ∈ [exRowC5], r.tableName = "T" → pyLower (pyStrip r.removeCol) = "yes")
      ∧ pyLower (pyStrip "T") ∉ normProtSet [] :=
  (c5_table_rollup [exRowC5] []).1 "T" "Yes" (by decide)

/-! ## Claim C6 -/

/-- C6: `generate_drop_column_sql` emits an `ALTER TABLE ... DROP COLUMN`
statement exactly for the input rows with `Remove_column = "Yes"` whose
(stripped) `TableName` is in the kept-tables set and whose stripped
`SourceColumn` is non-empty and not `"[Measure]"`, and the column name in
each emitted statement is the stripped `SourceColumn` storage name. -/
theorem c6_drop_column_sql (f5 : List F5Row) (schema : String) (kept : List String) :
    generate_drop_column_sql f5 schema kept =
      (f5.filter (fun r =>
          pyLower (pyStrip r.removeCol) = "yes"
          && kept.contains (pyStrip r.tableName)
          && pyStrip r.sourceColumn ≠ ""
          && pyStrip r.sourceColumn ≠ "[Measure]")).map
        (fun r => (pyStrip r.tableName, r.colName,
          "ALTER TABLE [" ++ schema ++ "].[" ++ pyStrip r.tableName ++ "] DROP COLUMN ["
            ++ pyStrip r.sourceColumn ++ "];")) := by
  induction f5 with
  | nil => rfl
  | cons r rs ih =>
    by_cases h1 : kept.contains (pyStrip r.tableName) = true <;>
      by_cases h2 : pyLower (pyStrip r.removeCol) = "yes" <;>
        by_cases h3 : pyStrip r.sourceColumn = "" <;>
          by_cases h4 : pyStrip r.sourceColumn = "[Measure]" <;>
            simp_all [generate_drop_column_sql, List.filter_cons, List.map_cons]

/-! ## TMDL cleanup: line matchers

Each matcher embeds one regular expression of `tmdl_cleanup.py`.  The
patterns are anchored (`re.match`) and operate on single lines (no newline
inside), so they are implemented as deterministic character-list scanners;
the only nondeterminism in the source patterns — the optional quotes
`'?`, the greedy `\s+` and the lazy group `(.+?)` — is played out
explicitly in preference order (greedy run first, quote taken first,
shortest group first), matching the backtracking order of the `re` engine. -/

/-- Drop an exact literal prefix, returning the rest; `none` when `cs` does
not start with `kw`. -/
def dropPre : List Char → List Char → Option (List Char)
  | [], cs => some cs
  | _ :: _, [] => none
  | a :: as, b :: bs => if a = b then dropPre as bs else none

/-- `^KW\s` as a `re.match`: the literal keyword followed by one whitespace
character. -/
def prefixThenWs (kw : List Char) (cs : List Char) : Bool :=
  match dropPre kw cs with
  | some (c :: _) => pyWs c
  | _ => false

/-- The sibling-block pattern
`^\t(?:column|measure|hierarchy|partition|annotation)\s`. -/
def siblingLine (line : String) : Bool :=
  let cs := line.toList
  prefixThenWs "\tcolumn".toList cs || prefixThenWs "\tmeasure".toList cs
  || prefixThenWs "\thierarchy".toList cs || prefixThenWs "\tpartition".toList cs
  || prefixThenWs "\tannotation".toList cs

/-- `^\thierarchy\s+` (boolean form used by the cascade discovery). -/
def hierarchyStartB (line : String) : Bool := prefixThenWs "\thierarchy".toList line.toList

/-- `^\t\tvariation\s+` (boolean form used by the protection analysis). -/
def variationStartB (line : String) : Bool := prefixThenWs "\t\tvariation".toList line.toList

/-- The suffixes obtained by consuming 1..n of the leading whitespace run
(the possible splits of a greedy `\s+`), longest consumption first. -/
def wsPlusSplits (cs : List Char) : List (List Char) :=
  let n := (cs.takeWhile pyWs).length
  (List.range n).map (fun i => cs.drop (n - i))

/-- Tail `\s*$`: only whitespace remains. -/
def tailEnd (cs : List Char) : Bool := (cs.dropWhile pyWs).isEmpty

/-- Tail `\s*=` (anything may follow the equals sign, as in `re.match`). -/
def tailEq (cs : List Char) : Bool :=
  match cs.dropWhile pyWs with
  | c :: _ => c = '='
  | [] => false

/-- Tail `\s*(?:=.*)?$`: whitespace then either end of line or an equals
sign. -/
def tailColOpt (cs : List Char) : Bool :=
  match cs.dropWhile pyWs with
  | [] => true
  | c :: _ => c = '='

/-- `NAME'?` then `tail`: the literal name, an optional closing quote, then
the tail pattern. -/
def nameQuoteTail (name : List Char) (tail : List Char → Bool) (cs : List Char) : Bool :=
  match dropPre name cs with
  | some rest =>
    tail rest || (match rest with
      | c :: r2 => c = quoteC && tail r2
      | [] => false)
  | none => false

/-- `'?NAME'?` then `tail` (leading quote taken greedily first). -/
def quoteNameTail (name : List Char) (tail : List Char → Bool) (cs : List Char) : Bool :=
  (match cs with
    | c :: r => c = quoteC && nameQuoteTail name tail r
    | [] => false)
  || nameQuoteTail name tail cs

/-- `^KW\s+'?NAME'?TAIL` as a boolean matcher (all backtracking of the
greedy `\s+` explored). -/
def declMatch (kw name : List Char) (tail : List Char → Bool) (line : List Char) : Bool :=
  match dropPre kw line with
  | some rest => (wsPlusSplits rest).any (quoteNameTail name tail)
  | none => false

/-- `^\tmeasure\s+'?NAME'?\s*=` — the measure-block locator of
`remove_blocks_from_tmdl`. -/
def measureDeclB (name : String) (line : String) : Bool :=
  declMatch "\tmeasure".toList name.toList tailEq line.toList

/-- `^\tcolumn\s+'?NAME'?\s*(?:=.*)?$` — the column-block locator of
`remove_blocks_from_tmdl`. -/
def columnDeclB (name : String) (line : String) : Bool :=
  declMatch "\tcolumn".toList name.toList tailColOpt line.toList

/-- The lazy group `(.+?)'?TAIL` on `r1`: the shortest non-empty prefix
whose remainder matches an optional quote followed by the tail. -/
def lazyCapture (tail : List Char → Bool) (r1 : List Char) : Option (List Char) :=
  (List.range r1.length).findSome? (fun j =>
    let g := r1.take (j + 1)
    let rest := r1.drop (j + 1)
    let ok := tail rest || (match rest with
      | c :: r2 => c = quoteC && tail r2
      | [] => false)
    if ok then some g else none)

/-- `^KW\s+'?(.+?)'?TAIL` as a capturing matcher, exploring the greedy
`\s+` splits longest-first and the leading optional quote taken-first, and
returning the group of the first successful alternative (the group the
`re` engine reports). -/
def captureDecl (kw : List Char) (tail : List Char → Bool) (line : List Char) :
    Option (List Char) :=
  match dropPre kw line with
  | some rest =>
    (wsPlusSplits rest).findSome? (fun r0 =>
      match r0 with
      | c :: r1 =>
        if c = quoteC then
          match lazyCapture tail r1 with
          | some g => some g
          | none => lazyCapture tail r0
        else lazyCapture tail r0
      | [] => none)
  | none => none

/-- `^\thierarchy\s+'?(.+?)'?\s*$` — hierarchy-name capture. -/
def hierarchyNameCap (line : String) : Option String :=
  (captureDecl "\thierarchy".toList tailEnd line.toList).map String.mk

/-- `^\t\tvariation\s+'?(.+?)'?\s*$` — variation-name capture. -/
def variationNameCap (line : String) : Option String :=
  (captureDecl "\t\tvariation".toList tailEnd line.toList).map String.mk

/-- `^\tcolumn\s+'?(.+?)'?\s*(?:=.*)?$` — column-name capture (the
current-column tracker of the protection analyses). -/
def columnNameCap (line : String) : Option String :=
  (captureDecl "\tcolumn".toList tailColOpt line.toList).map String.mk

/-- `^\tcolumn\s+'?(.+?)'?\s*=` — calculated-column declaration capture. -/
def calcDeclCap (line : String) : Option String :=
  (captureDecl "\tcolumn".toList tailEq line.toList).map String.mk

/-- `^\tmeasure\s+'?(.+?)'?\s*=` — measure declaration capture. -/
def measDeclCap (line : String) : Option String :=
  (captureDecl "\tmeasure".toList tailEq line.toList).map String.mk

/-- `^KW\s*(.+)$` after a literal colon-ended keyword: the group is the rest
of the line after the greedy whitespace run.  When everything after the
keyword is whitespace the regex backtracks and captures the final
whitespace character (which every call site then strips away); when nothing
follows the keyword there is no match. -/
def captureAfterColon (kw : List Char) (line : List Char) : Option String :=
  match dropPre kw line with
  | some [] => none
  | some rest =>
    let g := rest.dropWhile pyWs
    if g.isEmpty then some (String.mk (rest.drop (rest.length - 1)))
    else some (String.mk g)
  | none => none

/-- `^\t\t\tcolumn:\s*(.+)$` — hierarchy level column reference. -/
def colRefCap (line : String) : Option String :=
  captureAfterColon "\t\t\tcolumn:".toList line.toList

/-- `^\t\t\tdefaultHierarchy:\s*(.+)$` — variation target reference. -/
def defaultHierCap (line : String) : Option String :=
  captureAfterColon "\t\t\tdefaultHierarchy:".toList line.toList

/-- `^\t\tsortByColumn:\s*(.+)$` — sort-target reference. -/
def sortByCap (line : String) : Option String :=
  captureAfterColon "\t\tsortByColumn:".toList line.toList

/-- `^\t\tannotation\s+__PBI_SemanticLinks\s*=\s*(.+)$` — structured link
metadata carrier. -/
def semLinkCap (line : String) : Option String :=
  match dropPre "\t\tannotation".toList line.toList with
  | some rest =>
    if (rest.takeWhile pyWs).isEmpty then none
    else
      match dropPre "__PBI_SemanticLinks".toList (rest.dropWhile pyWs) with
      | some r2 =>
        match r2.dropWhile pyWs with
        | c :: r3 =>
          if c = '=' then
            if r3.isEmpty then none
            else
              let g := r3.dropWhile pyWs
              if g.isEmpty then some (String.mk (r3.drop (r3.length - 1)))
              else some (String.mk g)
          else none
        | [] => none
      | none => none
  | none => none

/-! ## TMDL cleanup: block ranges -/

/-- Scan forward for the first sibling-level line (fuel-indexed loop of
`find_block_range`). -/
def findBlockEndAux (lines : List String) : Nat → Nat → Nat
  | 0, idx => idx
  | fuel + 1, idx =>
    if idx < lines.length then
      if siblingLine (lines.getD idx "") then idx
      else findBlockEndAux lines fuel (idx + 1)
    else idx

/-- Embeds `find_block_range` (tmdl_cleanup.py lines 39-62): the block spans
from the declaration line to the next sibling-level block or end of file. -/
def find_block_range (lines : List String) (start : Nat) : Nat × Nat :=
  (start, findBlockEndAux lines lines.length (start + 1))

/-- Scan forward over blank lines and `\t\t\t`-deep content (fuel-indexed
loop of `find_variation_range`). -/
def findVarEndAux (lines : List String) : Nat → Nat → Nat
  | 0, idx => idx
  | fuel + 1, idx =>
    if idx < lines.length then
      let line := lines.getD idx ""
      if pyStrip line = "" then findVarEndAux lines fuel (idx + 1)
      else if isPre "\t\t\t".toList line.toList then findVarEndAux lines fuel (idx + 1)
      else idx
    else idx

/-- Embeds `find_variation_range` (lines 65-95): the sub-block extends over
blank lines and three-tab-deep content until the next sibling or parent
line. -/
def find_variation_range (lines : List String) (start : Nat) : Nat × Nat :=
  (start, findVarEndAux lines lines.length (start + 1))

/-! ## JSON (model of `json.loads` for the semantic-link annotation values)

A small recursive-descent JSON reader.  It covers the JSON grammar used by
`__PBI_SemanticLinks` values: null, booleans, numbers (validated loosely
and not retained, since the extraction below only reads strings), strings
with the standard escapes, arrays and objects.  Parse failure models a
`json.JSONDecodeError`, which the source logs and skips. -/

inductive Json where
  | null : Json
  | jbool : Bool → Json
  | num : Json
  | str : String → Json
  | arr : List Json → Json
  | obj : List (String × Json) → Json
deriving Repr, Inhabited

/-- Opening brace character. -/
def lbrace : Char := Char.ofNat 123

/-- Closing brace character. -/
def rbrace : Char := Char.ofNat 125

/-- JSON inter-token whitespace. -/
def jsonWs (c : Char) : Bool := c = ' ' || c = '\t' || c = '\n' || c = '\r'

/-- Hexadecimal digit value. -/
def hexVal (c : Char) : Option Nat :=
  if c.isDigit then some (c.toNat - 48)
  else if 97 ≤ c.toNat && c.toNat ≤ 102 then some (c.toNat - 87)
  else if 65 ≤ c.toNat && c.toNat ≤ 70 then some (c.toNat - 55)
  else none

/-- Read a JSON string body (after the opening double quote), handling the
standard escapes; returns the content and the rest of the input. -/
def parseJStr : Nat → List Char → Option (List Char × List Char)
  | 0, _ => none
  | fuel + 1, cs =>
    match cs with
    | [] => none
    | c :: rest =>
      if c = '"' then some ([], rest)
      else if c = '\\' then
        match rest with
        | [] => none
        | e :: r2 =>
          if e = '"' then (parseJStr fuel r2).map (fun p => ('"' :: p.1, p.2))
          else if e = '\\' then (parseJStr fuel r2).map (fun p => ('\\' :: p.1, p.2))
          else if e = '/' then (parseJStr fuel r2).map (fun p => ('/' :: p.1, p.2))
          else if e = 'b' then (parseJStr fuel r2).map (fun p => (Char.ofNat 8 :: p.1, p.2))
          else if e = 'f' then (parseJStr fuel r2).map (fun p => (Char.ofNat 12 :: p.1, p.2))
          else if e = 'n' then (parseJStr fuel r2).map (fun p => ('\n' :: p.1, p.2))
          else if e = 'r' then (parseJStr fuel r2).map (fun p => ('\r' :: p.1, p.2))
          else if e = 't' then (parseJStr fuel r2).map (fun p => ('\t' :: p.1, p.2))
          else if e = 'u' then
            match r2 with
            | a :: b :: c2 :: d :: r3 =>
              match hexVal a, hexVal b, hexVal c2, hexVal d with
              | some x1, some x2, some x3, some x4 =>
                (parseJStr fuel r3).map
                  (fun p => (Char.ofNat (((x1 * 16 + x2) * 16 + x3) * 16 + x4) :: p.1, p.2))
              | _, _, _, _ => none
            | _ => none
          else none
      else (parseJStr fuel rest).map (fun p => (c :: p.1, p.2))

/-- Characters that may appear in a JSON number token. -/
def jsonNumChar (c : Char) : Bool :=
  c.isDigit || c = '-' || c = '+' || c = '.' || c = 'e' || c = 'E'

mutual

def parseJValue : Nat → List Char → Option (Json × List Char)
  | 0, _ => none
  | fuel + 1, cs0 =>
    match cs0.dropWhile jsonWs with
    | [] => none
    | c :: rest =>
      if c = '"' then (parseJStr fuel rest).map (fun p => (Json.str (String.mk p.1), p.2))
      else if c = lbrace then parseJObj fuel rest
      else if c = '[' then parseJArr fuel rest
      else if c = 't' then (dropPre "rue".toList rest).map (fun rr => (Json.jbool true, rr))
      else if c = 'f' then (dropPre "alse".toList rest).map (fun rr => (Json.jbool false, rr))
      else if c = 'n' then (dropPre "ull".toList rest).map (fun rr => (Json.null, rr))
      else if c.isDigit || c = '-' then some (Json.num, rest.dropWhile jsonNumChar)
      else none

def parseJArr : Nat → List Char → Option (Json × List Char)
  | 0, _ => none
  | fuel + 1, cs =>
    match cs.dropWhile jsonWs with
    | c :: rest =>
      if c = ']' then some (Json.arr [], rest)
      else
        match parseJValue fuel (c :: rest) with
        | some (v, r2) => (parseJArrTail fuel r2).map (fun p => (Json.arr (v :: p.1), p.2))
        | none => none
    | [] => none

def parseJArrTail : Nat → List Char → Option (List Json × List Char)
  | 0, _ => none
  | fuel + 1, cs =>
    match cs.dropWhile jsonWs with
    | c :: rest =>
      if c = ',' then
        match parseJValue fuel rest with
        | some (v, r2) => (parseJArrTail fuel r2).map (fun p => (v :: p.1, p.2))
        | none => none
      else if c = ']' then some ([], rest)
      else none
    | [] => none

def parseJObj : Nat → List Char → Option (Json × List Char)
  | 0, _ => none
  | fuel + 1, cs =>
    match cs.dropWhile jsonWs with
    | c :: rest =>
      if c = rbrace then some (Json.obj [], rest)
      else if c = '"' then
        match parseJStr fuel rest with
        | some (k, r2) =>
          match r2.dropWhile jsonWs with
          | d :: r3 =>
            if d = ':' then
              match parseJValue fuel r3 with
              | some (v, r4) =>
                (parseJObjTail fuel r4).map
                  (fun p => (Json.obj ((String.mk k, v) :: p.1), p.2))
              | none => none
            else none
          | [] => none
        | none => none
      else none
    | [] => none

def parseJObjTail : Nat → List Char → Option (List (String × Json) × List Char)
  | 0, _ => none
  | fuel + 1, cs =>
    match cs.dropWhile jsonWs with
    | c :: rest =>
      if c = rbrace then some ([], rest)
      else if c = ',' then
        match rest.dropWhile jsonWs with
        | d :: r1 =>
          if d = '"' then
            match parseJStr fuel r1 with
            | some (k, r2) =>
              match r2.dropWhile jsonWs with
              | e :: r3 =>
                if e = ':' then
                  match parseJValue fuel r3 with
                  | some (v, r4) =>
                    (parseJObjTail fuel r4).map (fun p => ((String.mk k, v) :: p.1, p.2))
                  | none => none
                else none
              | [] => none
            | none => none
          else none
        | [] => none
      else none
    | [] => none

end

/-- `json.loads`: parse a complete JSON document (leading and trailing
whitespace allowed, nothing else may follow). -/
def jsonLoads (s : String) : Option Json :=
  match parseJValue (2 * s.toList.length + 4) s.toList with
  | some (v, rest) => if (rest.dropWhile jsonWs).isEmpty then some v else none
  | none => none

/-- Python dictionary lookup on a parsed JSON object (`json.loads` keeps the
last of duplicate keys). -/
def jObjGet (j : Json) (k : String) : Option Json :=
  match j with
  | Json.obj ps => (ps.reverse.find? (fun p => p.1 = k)).map (·.2)
  | _ => none

/-- Extract a JSON string value. -/
def jStr? : Json → Option String
  | Json.str s => some s
  | _ => none

/-- The semantic-link target extraction of
`_find_protected_semantic_link_columns` (lines 559-569): wrap a non-list
value in a singleton list; for each link take `LinkTarget.TableName` and
`LinkTarget.TableItemName`, strip them, and keep `T$$C` when both are
non-empty.  (A link that is not an object, or a target field that is not a
string, contributes nothing; on such values the Python code would fail with
an uncaught attribute error, a corner outside the data format this
annotation carries.) -/
def semanticLinkTargets (j : Json) : List String :=
  let links := match j with
    | Json.arr l => l
    | v => [v]
  links.filterMap (fun link =>
    match jObjGet link "LinkTarget" with
    | some t =>
      let tts := pyStrip (((jObjGet t "TableName").bind jStr?).getD "")
      let tis := pyStrip (((jObjGet t "TableItemName").bind jStr?).getD "")
      if tts ≠ "" && tis ≠ "" then some (tts ++ "$$" ++ tis) else none
    | none => none)

/-! ## File-system model

The semantic-model `tables/` directory is an association list from table
name (the `.tmdl` file stem) to the list of lines of the file (the source
reads files as text and splits on a newline).  Passes that iterate
`sorted(tables_dir.glob("*.tmdl"))` iterate the name-sorted list; passes
that iterate the unsorted `glob` iterate the list in order (their results
are sets, so the order is irrelevant). -/

abbrev FS := List (String × List String)

/-- Existence / read of a `.tmdl` file by table name. -/
def fsFind (fs : FS) (name : String) : Option (List String) :=
  (fs.find? (fun p => p.1 = name)).map (·.2)

/-- Rewrite a file's contents. -/
def fsUpdate (fs : FS) (name : String) (lines : List String) : FS :=
  fs.map (fun p => if p.1 = name then (p.1, lines) else p)

/-- Delete a file (`Path.unlink`). -/
def fsDelete (fs : FS) (name : String) : FS :=
  fs.filter (fun p => p.1 ≠ name)

/-- Insertion step for the name-sorted file order. -/
def insertFileSorted (x : String × List String) : FS → FS
  | [] => [x]
  | y :: ys => if lexLt y.1.toList x.1.toList then y :: insertFileSorted x ys else x :: y :: ys

/-- The files in Python's `sorted(glob)` order. -/
def fsSorted (fs : FS) : FS := fs.foldl (fun acc x => insertFileSorted x acc) []

/-! ## Protection analysis 1: hierarchy/variation support -/

/-- The current-column tracker shared by the protection analyses (lines
412-417, 467-471, 530-536): a column declaration line sets the scope, a
non-column sibling block resets it, anything else leaves it. -/
def updateCurrentColumn (cur : Option String) (line : String) : Option String :=
  match columnNameCap line with
  | some g => some g
  | none =>
    if siblingLine line && !(isPre "column ".toList (lstripTabs line).toList) then none
    else cur

/-- Step 1 of `_find_protected_hierarchy_columns` for one file: collect the
(stripped) `defaultHierarchy` references of variations that sit in KEPT
columns (columns whose `Table$$Column` key is not in the removal set).  The
fuel is the number of remaining lines; `i` is the current index. -/
def hierStep1Aux (toRemove : List String) (tableName : String) (lines : List String) :
    Nat → Nat → Option String → List String
  | 0, _, _ => []
  | fuel + 1, i, cur =>
    if i < lines.length then
      let line := lines.getD i ""
      let cur' := updateCurrentColumn cur line
      let hits :=
        if variationStartB line then
          match cur' with
          | some colName =>
            if !(toRemove.contains (tableName ++ "$$" ++ colName)) then
              let r := find_variation_range lines i
              match (List.range (r.2 - r.1)).findSome?
                  (fun o => defaultHierCap (lines.getD (r.1 + o) "")) with
              | some g => [pyStrip g]
              | none => []
            else []
          | none => []
        else []
      hits ++ hierStep1Aux toRemove tableName lines fuel (i + 1) cur'
    else []

/-- Step 2: for every hierarchy whose qualified name `Table.'Name'` is
protected, the level column references (stripped of whitespace and quotes)
become protected keys of the hierarchy's own table. -/
def hierStep2 (fs : FS) (protH : List String) : List String :=
  fs.flatMap (fun p =>
    (List.range p.2.length).flatMap (fun i =>
      match hierarchyNameCap (p.2.getD i "") with
      | some g =>
        if protH.contains (p.1 ++ "." ++ qS ++ g ++ qS) then
          let r := find_block_range p.2 i
          (List.range (r.2 - r.1)).filterMap (fun o =>
            (colRefCap (p.2.getD (r.1 + o) "")).map
              (fun c => p.1 ++ "$$" ++ stripQuotes (pyStrip c)))
        else []
      | none => []))

/-- Step 3 for one file: protect `sortByColumn` targets declared inside
columns that are kept or already protected, when the target is in the
removal set and not already protected. -/
def hierStep3Aux (toRemove protected2 : List String) (tableName : String)
    (lines : List String) : Nat → Nat → Option String → List String
  | 0, _, _ => []
  | fuel + 1, i, cur =>
    if i < lines.length then
      let line := lines.getD i ""
      let cur' := updateCurrentColumn cur line
      let hits :=
        match cur' with
        | some colName =>
          let colKey := tableName ++ "$$" ++ colName
          if protected2.contains colKey || !(toRemove.contains colKey) then
            match sortByCap line with
            | some g =>
              let sortKey := tableName ++ "$$" ++ stripQuotes (pyStrip g)
              if toRemove.contains sortKey && !(protected2.contains sortKey)
              then [sortKey] else []
            | none => []
          else []
        | none => []
      hits ++ hierStep3Aux toRemove protected2 tableName lines fuel (i + 1) cur'
    else []

/-- Embeds `_find_protected_hierarchy_columns` (lines 371-486): variations
in kept columns protect their target hierarchies; protected hierarchies
protect their level columns; kept or protected columns protect their
`sortByColumn` targets. -/
def _find_protected_hierarchy_columns (fs : FS) (toRemove : List String) : List String :=
  let protH := fs.flatMap (fun p => hierStep1Aux toRemove p.1 p.2 p.2.length 0 none)
  if protH.isEmpty then []
  else
    let p2 := hierStep2 fs protH
    p2 ++ fs.flatMap (fun p => hierStep3Aux toRemove p2 p.1 p.2 p.2.length 0 none)

/-! ## Protection analysis 2: semantic-link targets -/

/-- One file of `_find_protected_semantic_link_columns`: for every
`__PBI_SemanticLinks` annotation inside a KEPT column, parse its JSON value
and protect every link target key that is in the removal set; unparsable
values drop that single edge. -/
def semLinkFileAux (toRemove : List String) (tableName : String) (lines : List String) :
    Nat → Nat → Option String → List String
  | 0, _, _ => []
  | fuel + 1, i, cur =>
    if i < lines.length then
      let line := lines.getD i ""
      let cur' := updateCurrentColumn cur line
      let hits :=
        match cur' with
        | none => []
        | some colName =>
          match semLinkCap line with
          | none => []
          | some raw =>
            if toRemove.contains (tableName ++ "$$" ++ colName) then []
            else
              match jsonLoads (pyStrip raw) with
              | none => []
              | some j => (semanticLinkTargets j).filter (fun k => toRemove.contains k)
      hits ++ semLinkFileAux toRemove tableName lines fuel (i + 1) cur'
    else []

/-- Embeds `_find_protected_semantic_link_columns` (lines 493-571). -/
def _find_protected_semantic_link_columns (fs : FS) (toRemove : List String) : List String :=
  fs.flatMap (fun p => semLinkFileAux toRemove p.1 p.2 p.2.length 0 none)

/-! ## Protection analysis 3: DAX formula references -/

/-- Kept calculated columns of the Function 5 frame: blank `SourceColumn`
and `Remove_column` equal to "no" after strip/lower, as stripped
(table, column) pairs. -/
def keptCalcSet (f5 : List F5Row) : List (String × String) :=
  f5.filterMap (fun r =>
    if pyStrip r.sourceColumn = "" && pyLower (pyStrip r.removeCol) = "no"
    then some (pyStrip r.tableName, pyStrip r.colName) else none)

/-- Kept measures of the Function 5 frame. -/
def keptMeasureSet (f5 : List F5Row) : List (String × String) :=
  f5.filterMap (fun r =>
    if pyStrip r.sourceColumn = "[Measure]" && pyLower (pyStrip r.removeCol) = "no"
    then some (pyStrip r.tableName, pyStrip r.colName) else none)

/-- Tail `'?\s*\[([^\]]+)\]` of the qualified DAX reference pattern:
optional quote, whitespace, an opening bracket, at least one non-bracket
character, a closing bracket.  Returns the bracket content and the rest. -/
def daxRefTail (cs : List Char) : Option (String × List Char) :=
  let attempt := fun (cs2 : List Char) =>
    match cs2.dropWhile pyWs with
    | c :: r =>
      if c = '[' then
        let content := r.takeWhile (fun d => d ≠ ']')
        match r.drop content.length with
        | d :: rr => if d = ']' && !content.isEmpty then some (String.mk content, rr) else none
        | [] => none
      else none
    | [] => none
  match cs with
  | c :: rest =>
    if c = quoteC then
      match attempt rest with
      | some x => some x
      | none => attempt cs
    else attempt cs
  | [] => none

/-- The lazy middle `[\w\s]*?` of the qualified reference pattern: extend
the group one character at a time, trying the tail first (the lazy
preference order). -/
def daxRefLazy (accRev : List Char) (cs : List Char) :
    Nat → Option ((String × String) × List Char)
  | 0 => none
  | fuel + 1 =>
    match daxRefTail cs with
    | some (col, rest) => some ((String.mk accRev.reverse, col), rest)
    | none =>
      match cs with
      | c :: rest =>
        if wordChar c || pyWs c then daxRefLazy (c :: accRev) rest fuel else none
      | [] => none

/-- Match the qualified reference `'?(\w[\w\s]*?)'?\s*\[([^\]]+)\]` at the
head of `cs` (leading quote taken greedily first). -/
def daxRefMatchAt (cs : List Char) : Option ((String × String) × List Char) :=
  let core := fun (cs2 : List Char) =>
    match cs2 with
    | c :: rest =>
      if wordChar c then daxRefLazy [c] rest (rest.length + 1) else none
    | [] => none
  match cs with
  | c :: rest =>
    if c = quoteC then
      match core rest with
      | some x => some x
      | none => core cs
    else core cs
  | [] => none

/-- `re.findall` of the qualified `Table[Column]` DAX reference pattern:
scan left to right, taking non-overlapping matches. -/
def daxRefFindAll : Nat → List Char → List (String × String)
  | 0, _ => []
  | fuel + 1, cs =>
    match cs with
    | [] => []
    | _ :: rest =>
      match daxRefMatchAt cs with
      | some (pr, after) => pr :: daxRefFindAll fuel after
      | none => daxRefFindAll fuel rest

/-- `re.findall` of the unqualified reference pattern `(?<!['\w])\[([^\]]+)\]`:
a bracketed name not preceded by a quote or word character. -/
def daxUnqFindAll : Nat → Option Char → List Char → List String
  | 0, _, _ => []
  | fuel + 1, prev, cs =>
    match cs with
    | [] => []
    | c :: rest =>
      let prevOk := match prev with
        | some p => !(p = quoteC || wordChar p)
        | none => true
      if c = '[' && prevOk then
        let content := rest.takeWhile (fun d => d ≠ ']')
        match rest.drop content.length with
        | d :: rr =>
          if d = ']' && !content.isEmpty then
            String.mk content :: daxUnqFindAll fuel (some ']') rr
          else daxUnqFindAll fuel (some c) rest
        | [] => daxUnqFindAll fuel (some c) rest
      else daxUnqFindAll fuel (some c) rest

/-- Collect the continuation lines of a DAX block: lines starting with two
tabs or blank, from index `j` (lines 647-653). -/
def collectDax (lines : List String) : Nat → Nat → List String
  | 0, _ => []
  | fuel + 1, j =>
    if j < lines.length then
      let l := lines.getD j ""
      if isPre "\t\t".toList l.toList || pyStrip l = "" then
        l :: collectDax lines fuel (j + 1)
      else []
    else []

/-- Resolve one found reference key against the removal set: membership is
case-insensitive, and the protected key is recorded in its original casing
(the first removal-set entry with a matching lowercase form). -/
def daxResolveKey (toRemove : List String) (refKey : String) : Option String :=
  if (toRemove.map pyLower).contains (pyLower refKey) then
    toRemove.find? (fun k => pyLower k = pyLower refKey)
  else none

/-- One file of `_find_protected_dax_reference_columns`: walk the lines,
and at each declaration of a kept calculated column or kept measure collect
its DAX block, join it with spaces, and protect every qualified or
unqualified column reference that is in the removal set; the walk resumes
after the DAX block. -/
def daxFileAux (keptCalc keptMeas : List (String × String)) (toRemove : List String)
    (tableName : String) (lines : List String) : Nat → Nat → List String
  | 0, _ => []
  | fuel + 1, i =>
    if i < lines.length then
      let line := lines.getD i ""
      let isCalc := match calcDeclCap line with
        | some g => keptCalc.contains (tableName, g)
        | none => false
      let isMeas := match measDeclCap line with
        | some g => keptMeas.contains (tableName, g)
        | none => false
      if isCalc || isMeas then
        let rest := collectDax lines lines.length (i + 1)
        let daxText := String.intercalate " " (line :: rest)
        let hits1 := (daxRefFindAll (daxText.toList.length + 1) daxText.toList).filterMap
          (fun pr => daxResolveKey toRemove (pyStrip pr.1 ++ "$$" ++ pyStrip pr.2))
        let hits2 := (daxUnqFindAll (daxText.toList.length + 1) none daxText.toList).filterMap
          (fun col => daxResolveKey toRemove (tableName ++ "$$" ++ pyStrip col))
        hits1 ++ hits2
          ++ daxFileAux keptCalc keptMeas toRemove tableName lines fuel (i + 1 + rest.length)
      else daxFileAux keptCalc keptMeas toRemove tableName lines fuel (i + 1)
    else []

/-- Embeds `_find_protected_dax_reference_columns` (lines 578-678). -/
def _find_protected_dax_reference_columns (fs : FS) (toRemove : List String)
    (f5 : List F5Row) : List String :=
  let keptCalc := keptCalcSet f5
  let keptMeas := keptMeasureSet f5
  if keptCalc.isEmpty && keptMeas.isEmpty then []
  else fs.flatMap (fun p => daxFileAux keptCalc keptMeas toRemove p.1 p.2 (p.2.length + 1) 0)

/-! ## Protection analysis 4: hierarchy-level siblings -/

/-- One file of `_find_protected_hierarchy_level_siblings`: for every
hierarchy, if any level column is kept, every level column in the removal
set is protected. -/
def siblingsFile (toRemove : List String) (tableName : String) (lines : List String) :
    List String :=
  (List.range lines.length).flatMap (fun i =>
    match hierarchyNameCap (lines.getD i "") with
    | none => []
    | some _ =>
      let r := find_block_range lines i
      let levelCols := (List.range (r.2 - r.1)).filterMap (fun o =>
        (colRefCap (lines.getD (r.1 + o) "")).map (fun g => stripQuotes (pyStrip g)))
      if levelCols.any (fun c => !(toRemove.contains (tableName ++ "$$" ++ c))) then
        levelCols.filterMap (fun c =>
          if toRemove.contains (tableName ++ "$$" ++ c)
          then some (tableName ++ "$$" ++ c) else none)
      else [])

/-- Embeds `_find_protected_hierarchy_level_siblings` (lines 685-743). -/
def _find_protected_hierarchy_level_siblings (fs : FS) (toRemove : List String) :
    List String :=
  fs.flatMap (fun p => siblingsFile toRemove p.1 p.2)

/-! ## Block removal from one TMDL file -/

/-- An item to remove (one entry of `items_to_remove`), and the record shape
of the `removed` report rows. -/
structure Item where
  table : String
  name : String
  item_type : String
  block_type : String
deriving DecidableEq, Repr, Inhabited

/-- A skipped-item report row (an item plus the skip reason). -/
structure Skipped where
  table : String
  name : String
  item_type : String
  block_type : String
  reason : String
deriving DecidableEq, Repr, Inhabited

/-- The declaration-line pattern chosen for an item by its block type
(lines 134-139). -/
def itemPattern (it : Item) (line : String) : Bool :=
  if it.block_type = "measure" then measureDeclB it.name line else columnDeclB it.name line

/-- First line index satisfying `p`, as the `for i, line in enumerate`
search with `break`. -/
def findFirstIdx (p : String → Bool) (lines : List String) : Option Nat :=
  (List.range lines.length).find? (fun i => p (lines.getD i ""))

/-- The locate loop of `remove_blocks_from_tmdl` (lines 131-152): each item
either contributes its block range (at the first matching declaration line)
and a removed entry, or a skipped entry with reason "Not found in TMDL". -/
def locateItems (lines : List String) :
    List Item → List (Nat × Nat) × List Item × List Skipped
  | [] => ([], [], [])
  | it :: rest =>
    let acc := locateItems lines rest
    match findFirstIdx (itemPattern it) lines with
    | some i => (find_block_range lines i :: acc.1, it :: acc.2.1, acc.2.2)
    | none =>
      (acc.1, acc.2.1,
        ⟨it.table, it.name, it.item_type, it.block_type, "Not found in TMDL"⟩ :: acc.2.2)

/-- The cascade discovery of `remove_blocks_from_tmdl` (lines 160-190): a
hierarchy block whose start is not already a removed block and whose level
references hit a removed column name is deleted too, reported as
"Hierarchy (cascade)". -/
def cascadeHier (tableName : String) (lines : List String) (removedColNames : List String)
    (existingStarts : List Nat) : List ((Nat × Nat) × Item) :=
  (List.range lines.length).filterMap (fun i =>
    let line := lines.getD i ""
    if hierarchyStartB line && !(existingStarts.contains i) then
      let r := find_block_range lines i
      if (List.range (r.2 - r.1)).any (fun o =>
          match colRefCap (lines.getD (r.1 + o) "") with
          | some g => removedColNames.contains (stripQuotes (pyStrip g))
          | none => false) then
        some (r,
          ⟨tableName, (hierarchyNameCap line).getD "(unknown)", "Hierarchy (cascade)",
            "hierarchy"⟩)
      else none
    else none)

/-- Qualified names `Table.'Name'` of those removed blocks whose start line
is a hierarchy declaration (lines 194-203), for the cross-file variation
cleanup. -/
def extractDeletedHierarchies (tableName : String) (lines : List String)
    (blocks : List (Nat × Nat)) : List String :=
  blocks.filterMap (fun b =>
    (hierarchyNameCap (lines.getD b.1 "")).map
      (fun g => tableName ++ "." ++ qS ++ g ++ qS))

/-- `del lines[start:end]`. -/
def delRange (lines : List String) (b : Nat × Nat) : List String :=
  lines.take b.1 ++ lines.drop b.2

/-- Stable insertion (descending by start) for the bottom-to-top removal
order. -/
def insertBlockDesc (b : Nat × Nat) : List (Nat × Nat) → List (Nat × Nat)
  | [] => [b]
  | c :: cs => if b.1 > c.1 then b :: c :: cs else c :: insertBlockDesc b cs

/-- `blocks.sort(key=lambda x: x[0], reverse=True)` (stable). -/
def sortBlocksDesc (blocks : List (Nat × Nat)) : List (Nat × Nat) :=
  blocks.foldl (fun acc b => insertBlockDesc b acc) []

/-- Delete the given ranges in order (callers pass them sorted bottom-up). -/
def applyBlocksDesc (lines : List String) (sorted : List (Nat × Nat)) : List String :=
  sorted.foldl delRange lines

/-- The result of `remove_blocks_from_tmdl` on one file: the removal count,
the removed and skipped report rows, the qualified names of deleted
hierarchies, the new file contents, and whether the file was backed up and
rewritten (false exactly when no block was found). -/
structure RemoveResult where
  count : Nat
  removed : List Item
  skipped : List Skipped
  deletedHierarchies : List String
  newLines : List String
  wroteFile : Bool
deriving Repr

/-- Embeds `remove_blocks_from_tmdl` (lines 102-218): locate each item's
block, return unchanged (no backup, no write) when nothing was found,
otherwise cascade to hierarchies referencing removed columns, record the
deleted hierarchies' qualified names, and splice all block ranges out
bottom-to-top. -/
def remove_blocks_from_tmdl (tableName : String) (lines : List String)
    (items : List Item) : RemoveResult :=
  let loc := locateItems lines items
  let blocks0 := loc.1
  let removed0 := loc.2.1
  let skipped := loc.2.2
  if blocks0.isEmpty then
    ⟨0, removed0, skipped, [], lines, false⟩
  else
    let removedColNames := (removed0.filter (fun it => it.block_type = "column")).map (·.name)
    let casc := if removedColNames.isEmpty then []
      else cascadeHier tableName lines removedColNames (blocks0.map (·.1))
    let blocks := blocks0 ++ casc.map (·.1)
    let removed := removed0 ++ casc.map (·.2)
    ⟨removed.length, removed, skipped, extractDeletedHierarchies tableName lines blocks,
      applyBlocksDesc lines (sortBlocksDesc blocks), true⟩

/-! ## Cross-file variation cleanup -/

/-- The variation blocks of one file whose range contains a
`defaultHierarchy` reference (stripped) to a deleted hierarchy
(lines 262-283), with their cascade report rows. -/
def variationBlocksToRemove (deleted : List String) (tableName : String)
    (lines : List String) : List ((Nat × Nat) × Item) :=
  (List.range lines.length).filterMap (fun i =>
    match variationNameCap (lines.getD i "") with
    | none => none
    | some vname =>
      let r := find_variation_range lines i
      if (List.range (r.2 - r.1)).any (fun o =>
          match defaultHierCap (lines.getD (r.1 + o) "") with
          | some g => deleted.contains (pyStrip g)
          | none => false) then
        some (r, ⟨tableName, vname, "Variation (cascade)", "variation"⟩)
      else none)

/-- Accumulated state of `remove_orphaned_variations`: the directory, the
set of file names that have a backup, and the cascade report rows. -/
structure OrphanState where
  fs : FS
  backups : List String
  items : List Item
deriving Repr

/-- The table-name part of a deleted hierarchy's qualified name
(`h.split(".", 1)[0]`). -/
def hierTableName (h : String) : String :=
  ((splitOnce "." h).map (·.1)).getD h

/-- A table is still a variation target if some file contains the substring
`defaultHierarchy: Table.` (line 318). -/
def stillReferenced (fs : FS) (tname : String) : Bool :=
  fs.any (fun p =>
    containsSub (String.intercalate "\n" p.2) ("defaultHierarchy: " ++ tname ++ "."))

/-- One step of the variation-deletion loop of `remove_orphaned_variations`
(lines 258-299): the file is backed up (unless already backed up) and
rewritten only when it has matching variation blocks. -/
def orphanStepA (deleted : List String) (st : OrphanState) (p : String × List String) :
    OrphanState :=
  let bl := variationBlocksToRemove deleted p.1 p.2
  if bl.isEmpty then st
  else
    { fs := fsUpdate st.fs p.1 (applyBlocksDesc p.2 (sortBlocksDesc (bl.map (·.1))))
      backups := if st.backups.contains p.1 then st.backups else st.backups ++ [p.1]
      items := st.items ++ bl.map (·.2) }

/-- Remove every line whose stripped form is exactly `showAsVariationsOnly`
(line 339). -/
def markerStrip (lines : List String) : List String :=
  lines.filter (fun l => pyStrip l ≠ "showAsVariationsOnly")

/-- One step of the marker-stripping loop of `remove_orphaned_variations`
(lines 322-341). -/
def orphanStepB (st : OrphanState) (tname : String) : OrphanState :=
  match fsFind st.fs tname with
  | none => st
  | some lines =>
    if !(containsSub (String.intercalate "\n" lines) "\tshowAsVariationsOnly") then st
    else
      { fs := fsUpdate st.fs tname (markerStrip lines)
        backups := if st.backups.contains tname then st.backups else st.backups ++ [tname]
        items := st.items }

/-- The per-file effect of the variation-deletion pass: splice out the
matching variation blocks (the identity when there are none). -/
def orphanTransformA (deleted : List String) (tname : String) (lines : List String) :
    List String :=
  let bl := variationBlocksToRemove deleted tname lines
  if bl.isEmpty then lines
  else applyBlocksDesc lines (sortBlocksDesc (bl.map (·.1)))

/-- The state after the variation-deletion pass (the first loop of
`remove_orphaned_variations`). -/
def orphanPassAState (fs : FS) (backups deleted : List String) : OrphanState :=
  (fsSorted fs).foldl (orphanStepA deleted) ⟨fs, backups, []⟩

/-- The sorted list of truly orphaned variation-target tables (line 321):
tables of deleted hierarchies no longer referenced by any remaining
`defaultHierarchy` after the variation-deletion pass. -/
def orphanTruly (fs : FS) (backups deleted : List String) : List String :=
  sortStrings (((deleted.map hierTableName).dedup).filter
    (fun t => !(stillReferenced (orphanPassAState fs backups deleted).fs t)))

/-- Embeds `remove_orphaned_variations` (lines 225-343): delete every
variation block whose target hierarchy was deleted (backing up each touched
file unless already backed up), then strip the `showAsVariationsOnly` line
from every table that had a deleted hierarchy, still exists, carries the
marker, and is no longer referenced by any remaining `defaultHierarchy`. -/
def remove_orphaned_variations (fs : FS) (backups : List String)
    (deleted : List String) : OrphanState :=
  if deleted.isEmpty then ⟨fs, backups, []⟩
  else (orphanTruly fs backups deleted).foldl orphanStepB
    (orphanPassAState fs backups deleted)

/-! ## Main cleanup entry point -/

/-- Embeds `_classify_item` (lines 350-364): item type and block type from
`SourceColumn` (blank models NaN). -/
def _classify_item (sourceColumn : String) : String × String :=
  let src := pyStrip sourceColumn
  if src = "[Measure]" then ("Measure", "measure")
  else if src = "" then ("Calculated Column", "column")
  else ("Imported Column", "column")

/-- The Remove=Yes candidate rows, restricted in `tmdl_only` mode to
measures and calculated columns (lines 773-779). -/
def cleanupCandidates (f5 : List F5Row) (mode : String) : List F5Row :=
  let cand := f5.filter (fun r => pyLower (pyStrip r.removeCol) = "yes")
  if mode = "tmdl_only" then
    cand.filter (fun r => pyStrip r.sourceColumn = "" || pyStrip r.sourceColumn = "[Measure]")
  else cand

/-- The `TableName$$ColumnName` keys of the candidate rows (line 788). -/
def candKeys (cand : List F5Row) : List String :=
  cand.map (fun r => r.tableName ++ "$$" ++ r.colName)

/-- Skip reason for a key in the DAX-reference protection set. -/
def daxReasonMsg : String :=
  "DAX reference — used in a kept calculated column or measure formula"

/-- Skip reason for a key in the semantic-link protection set. -/
def semReasonMsg : String :=
  "SemanticLink target — referenced by kept column via __PBI_SemanticLinks"

/-- Skip reason for a key in the hierarchy-level-sibling protection set. -/
def sibReasonMsg : String :=
  "Hierarchy level sibling — another level in same hierarchy is kept"

/-- Skip reason for a key protected by the hierarchy/variation-support
analysis (the fallback branch). -/
def hierReasonMsg : String :=
  "Supports Date Hierarchy via variation chain — removing crashes PBI Desktop"

/-- The skip reason for a structurally protected candidate (lines 846-853):
the first analysis (in the source's priority order DAX, semantic link,
sibling, hierarchy/variation) whose set contains the key. -/
def protReason (dax sem sib : List String) (key : String) : String :=
  if dax.contains key then daxReasonMsg
  else if sem.contains key then semReasonMsg
  else if sib.contains key then sibReasonMsg
  else hierReasonMsg

/-- The sorted distinct table names of the surviving candidates (the
iteration order of `to_remove.groupby("TableName")`). -/
def groupTables (cand : List F5Row) : List String :=
  sortStrings (cand.map (·.tableName)).dedup

/-- Accumulated state of the per-table mutation loop of
`run_tmdl_cleanup`. -/
structure MutateState where
  fs : FS
  backups : List String
  removed : List Item
  skipped : List Skipped
  deletedHier : List String
deriving Repr

/-- The per-table mutation loop (lines 863-895): group the surviving
candidates by table name; a missing file yields `TMDL file not found` skips
for the whole group; otherwise `remove_blocks_from_tmdl` runs on the file,
its output is written back (with a backup) exactly when blocks were found,
and the per-file reports accumulate. -/
def mutateStep (surviving : List F5Row) (acc : MutateState) (t : String) : MutateState :=
  let group := surviving.filter (fun r => r.tableName = t)
  match fsFind acc.fs t with
  | none =>
    { acc with skipped := acc.skipped ++ group.map (fun r =>
        ⟨t, r.colName, (_classify_item r.sourceColumn).1, "column", "TMDL file not found"⟩) }
  | some lines =>
    let items : List Item := group.map (fun r =>
      ⟨t, r.colName, (_classify_item r.sourceColumn).1, (_classify_item r.sourceColumn).2⟩)
    let res := remove_blocks_from_tmdl t lines items
    { fs := if res.wroteFile then fsUpdate acc.fs t res.newLines else acc.fs
      backups := if res.wroteFile then acc.backups ++ [t] else acc.backups
      removed := acc.removed ++ res.removed
      skipped := acc.skipped ++ res.skipped
      deletedHier := acc.deletedHier ++ res.deletedHierarchies }

/-- The full per-table mutation loop. -/
def mutateTables (fs0 : FS) (surviving : List F5Row) : MutateState :=
  (groupTables surviving).foldl (mutateStep surviving) ⟨fs0, [], [], [], []⟩

/-- A file has remaining column or measure declarations, i.e.
`re.search(r"^\t(?:column|measure)\s", content, re.MULTILINE)` succeeds on
the joined content: some line starts with a tab, the keyword and a
whitespace character — or is exactly the tab and keyword and is not the
last line (the joining newline then matches the `\s`). -/
def hasDeclContent (lines : List String) : Bool :=
  (List.range lines.length).any (fun i =>
    let l := lines.getD i ""
    prefixThenWs "\tcolumn".toList l.toList || prefixThenWs "\tmeasure".toList l.toList
    || ((l = "\tcolumn" || l = "\tmeasure") && i + 1 < lines.length))

/-- Embeds the empty-table prune of `run_tmdl_cleanup` (lines 908-921):
every file without a column or measure declaration line is deleted (no
backup) and reported as "Empty Table Deleted", in sorted order. -/
def pruneStep (acc : FS × List Item) (p : String × List String) : FS × List Item :=
  if hasDeclContent p.2 then acc
  else (fsDelete acc.1 p.1, acc.2 ++ [⟨p.1, "(entire table)", "Empty Table Deleted", "table"⟩])

/-- The full empty-table prune. -/
def pruneEmptyTables (fs : FS) : FS × List Item :=
  (fsSorted fs).foldl pruneStep (fs, [])

/-- The overall result of `run_tmdl_cleanup`: the mutated directory, the
removed and skipped report rows, and the names of the files that received a
backup during the run. -/
structure CleanupResult where
  fs : FS
  removed : List Item
  skipped : List Skipped
  backups : List String
deriving Repr

/-- The `TableName$$ColumnName` key of a Function 5 row. -/
def rowKey (r : F5Row) : String := r.tableName ++ "$$" ++ r.colName

/-- Protection set 1 over the run's candidate keys (line 791). -/
def protHier (f5 : List F5Row) (fs : FS) (mode : String) : List String :=
  _find_protected_hierarchy_columns fs (candKeys (cleanupCandidates f5 mode))

/-- Protection set 2 over the run's candidate keys (line 796). -/
def protSem (f5 : List F5Row) (fs : FS) (mode : String) : List String :=
  _find_protected_semantic_link_columns fs (candKeys (cleanupCandidates f5 mode))

/-- Protection set 3 over the run's candidate keys (line 804). -/
def protDax (f5 : List F5Row) (fs : FS) (mode : String) : List String :=
  _find_protected_dax_reference_columns fs (candKeys (cleanupCandidates f5 mode)) f5

/-- Protection set 4 over the run's candidate keys (line 812). -/
def protSib (f5 : List F5Row) (fs : FS) (mode : String) : List String :=
  _find_protected_hierarchy_level_siblings fs (candKeys (cleanupCandidates f5 mode))

/-- The union of the four structural protection sets (`protected_cols`
after the updates of lines 791-815). -/
def cleanupProtectedUnion (f5 : List F5Row) (fs : FS) (mode : String) : List String :=
  protHier f5 fs mode ++ protSem f5 fs mode ++ protDax f5 fs mode ++ protSib f5 fs mode

/-- The candidate rows whose key is protected (`protected_rows`,
lines 820-824). -/
def protectedCandidates (f5 : List F5Row) (fs : FS) (mode : String) : List F5Row :=
  (cleanupCandidates f5 mode).filter
    (fun r => (cleanupProtectedUnion f5 fs mode).contains (rowKey r))

/-- The candidate rows surviving the protection subtraction (`to_remove`
after lines 825-829). -/
def survivingCandidates (f5 : List F5Row) (fs : FS) (mode : String) : List F5Row :=
  (cleanupCandidates f5 mode).filter
    (fun r => !((cleanupProtectedUnion f5 fs mode).contains (rowKey r)))

/-- The skip report rows for the protected candidates (lines 842-860). -/
def cleanupProtSkips (f5 : List F5Row) (fs : FS) (mode : String) : List Skipped :=
  if (cleanupProtectedUnion f5 fs mode).isEmpty then []
  else (protectedCandidates f5 fs mode).map (fun r =>
    ⟨r.tableName, r.colName, (_classify_item r.sourceColumn).1,
      (_classify_item r.sourceColumn).2,
      protReason (protDax f5 fs mode) (protSem f5 fs mode) (protSib f5 fs mode) (rowKey r)⟩)

/-- The directory state, backups and cascade report rows after the per-table
mutation and the orphaned-variation pass — i.e. just before the empty-table
prune (lines 863-903). -/
def prePruneState (f5 : List F5Row) (fs : FS) (mode : String) : OrphanState :=
  let st := mutateTables fs (survivingCandidates f5 fs mode)
  if st.deletedHier.isEmpty then ⟨st.fs, st.backups, []⟩
  else remove_orphaned_variations st.fs st.backups st.deletedHier

/-- Embeds `run_tmdl_cleanup` (lines 750-1020): filter the Function 5 rows
to the mode's candidate set (returning unchanged when empty), compute the
four structural protection sets over the full candidate set, subtract their
union from the candidates (returning unchanged when nothing survives),
record each protected candidate as skipped with its analysis reason, run
the per-table mutation, cascade orphaned variations when hierarchies were
deleted, and finally prune empty table files. -/
def run_tmdl_cleanup (f5 : List F5Row) (fs : FS) (mode : String) : CleanupResult :=
  if (cleanupCandidates f5 mode).isEmpty then ⟨fs, [], [], []⟩
  else if (survivingCandidates f5 fs mode).isEmpty then ⟨fs, [], [], []⟩
  else
    let st := mutateTables fs (survivingCandidates f5 fs mode)
    let pre := prePruneState f5 fs mode
    let pruned := pruneEmptyTables pre.fs
    ⟨pruned.1, st.removed ++ pre.items ++ pruned.2,
      cleanupProtSkips f5 fs mode ++ st.skipped, pre.backups⟩

/-! ## Structural lemmas about the cleanup pipeline -/

lemma classify_block_type (s : String) :
    (_classify_item s).2 = "measure" ∨ (_classify_item s).2 = "column" := by
  unfold _classify_item
  by_cases h1 : pyStrip s = "[Measure]" <;> by_cases h2 : pyStrip s = "" <;> simp [h1, h2]

lemma locateItems_removed_sub (lines : List String) (items : List Item) :
    ∀ it ∈ (locateItems lines items).2.1, it ∈ items := by
  induction items with
  | nil => simp [locateItems]
  | cons a rest ih =>
    intro it hit
    unfold locateItems at hit
    cases h : findFirstIdx (itemPattern a) lines with
    | some i =>
      rw [h] at hit
      simp only [List.mem_cons] at hit
      rcases hit with h1 | h1
      · exact h1 ▸ List.mem_cons_self a rest
      · exact List.mem_cons_of_mem _ (ih it h1)
    | none =>
      rw [h] at hit
      exact List.mem_cons_of_mem _ (ih it hit)

lemma cascadeHier_block_type (t : String) (lines : List String)
    (names : List String) (starts : List Nat) :
    ∀ x ∈ cascadeHier t lines names starts, x.2.block_type = "hierarchy" := by
  intro x hx
  unfold cascadeHier at hx
  obtain ⟨i, _, hx⟩ := List.mem_filterMap.mp hx
  dsimp only at hx
  split at hx
  · split at hx
    · cases hx
      rfl
    · cases hx
  · cases hx

lemma remove_blocks_removed_src (t : String) (lines : List String) (items : List Item) :
    ∀ it ∈ (remove_blocks_from_tmdl t lines items).removed,
      it ∈ items ∨ it.block_type = "hierarchy" := by
  intro it hit
  unfold remove_blocks_from_tmdl at hit
  dsimp only at hit
  split at hit
  · exact Or.inl (locateItems_removed_sub _ _ _ hit)
  · simp only at hit
    rcases List.mem_append.mp hit with h1 | h1
    · exact Or.inl (locateItems_removed_sub _ _ _ h1)
    · obtain ⟨x, hx, hxe⟩ := List.mem_map.mp h1
      right
      split at hx
      · cases hx
      · exact hxe ▸ cascadeHier_block_type _ _ _ _ x hx

/-- The provenance of a removed report row: either a cascade hierarchy, or a
direct removal of one of the surviving candidate rows. -/
def fromSurviving (surviving : List F5Row) (it : Item) : Prop :=
  it.block_type = "hierarchy"
  ∨ ∃ r ∈ surviving, it.table = r.tableName ∧ it.name = r.colName
      ∧ (it.block_type = "measure" ∨ it.block_type = "column")

lemma mutateStep_removed (surviving : List F5Row) (acc : MutateState) (t : String)
    (h : ∀ it ∈ acc.removed, fromSurviving surviving it) :
    ∀ it ∈ (mutateStep surviving acc t).removed, fromSurviving surviving it := by
  intro it hit
  unfold mutateStep at hit
  cases hf : fsFind acc.fs t with
  | none =>
    rw [hf] at hit
    exact h it hit
  | some lines =>
    rw [hf] at hit
    simp only at hit
    rcases List.mem_append.mp hit with h1 | h1
    · exact h it h1
    · rcases remove_blocks_removed_src _ _ _ it h1 with h2 | h2
      · obtain ⟨r, hr, hre⟩ := List.mem_map.mp h2
        obtain ⟨hrs, hrt⟩ := List.mem_filter.mp hr
        right
        refine ⟨r, hrs, ?_, ?_, ?_⟩
        · rw [← hre]
          exact (of_decide_eq_true hrt).symm
        · rw [← hre]
        · rw [← hre]
          exact classify_block_type r.sourceColumn
      · exact Or.inl h2

lemma mutateTables_removed (fs0 : FS) (surviving : List F5Row) :
    ∀ it ∈ (mutateTables fs0 surviving).removed, fromSurviving surviving it := by
  unfold mutateTables
  generalize groupTables surviving = ts
  have main : ∀ (acc : MutateState), (∀ it ∈ acc.removed, fromSurviving surviving it) →
      ∀ it ∈ (ts.foldl (mutateStep surviving) acc).removed, fromSurviving surviving it := by
    induction ts with
    | nil => intro acc h; simpa using h
    | cons t ts ih => intro acc h; exact ih _ (mutateStep_removed surviving acc t h)
  exact main ⟨fs0, [], [], [], []⟩ (by simp)

lemma variationBlocks_block_type (d : List String) (t : String) (lines : List String) :
    ∀ x ∈ variationBlocksToRemove d t lines, x.2.block_type = "variation" := by
  intro x hx
  unfold variationBlocksToRemove at hx
  obtain ⟨i, _, hx⟩ := List.mem_filterMap.mp hx
  split at hx
  · cases hx
  · dsimp only at hx
    split at hx
    · cases hx
      rfl
    · cases hx

lemma orphanStepB_items (st : OrphanState) (t : String) :
    (orphanStepB st t).items = st.items := by
  unfold orphanStepB
  split
  · rfl
  · split <;> rfl

lemma orphan_items_variation (fs : FS) (b : List String) (d : List String) :
    ∀ it ∈ (remove_orphaned_variations fs b d).items, it.block_type = "variation" := by
  unfold remove_orphaned_variations
  split
  · simp
  · intro it hit
    have stepB : ∀ (ts : List String) (st : OrphanState),
        (∀ x ∈ st.items, x.block_type = "variation") →
        ∀ x ∈ (ts.foldl orphanStepB st).items, x.block_type = "variation" := by
      intro ts
      induction ts with
      | nil => intro st h; simpa using h
      | cons t ts ih =>
        intro st h
        refine ih _ ?_
        rw [orphanStepB_items]
        exact h
    have stepA : ∀ (ps : List (String × List String)) (st : OrphanState),
        (∀ x ∈ st.items, x.block_type = "variation") →
        ∀ x ∈ (ps.foldl (orphanStepA d) st).items, x.block_type = "variation" := by
      intro ps
      induction ps with
      | nil => intro st h; simpa using h
      | cons p ps ih =>
        intro st h
        refine ih _ ?_
        intro x hx
        unfold orphanStepA at hx
        dsimp only at hx
        split at hx
        · exact h x hx
        · simp only at hx
          rcases List.mem_append.mp hx with h1 | h1
          · exact h x h1
          · obtain ⟨y, hy, hye⟩ := List.mem_map.mp h1
            exact hye ▸ variationBlocks_block_type _ _ _ y hy
    exact stepB _ _ (stepA _ _ (by simp)) it hit

lemma prune_items_table (fs : FS) :
    ∀ it ∈ (pruneEmptyTables fs).2, it.block_type = "table" := by
  unfold pruneEmptyTables
  have main : ∀ (ps : List (String × List String)) (acc : FS × List Item),
      (∀ x ∈ acc.2, x.block_type = "table") →
      ∀ x ∈ (ps.foldl pruneStep acc).2, x.block_type = "table" := by
    intro ps
    induction ps with
    | nil => intro acc h; simpa using h
    | cons p ps ih =>
      intro acc h
      refine ih _ ?_
      intro x hx
      unfold pruneStep at hx
      split at hx
      · exact h x hx
      · simp only at hx
        rcases List.mem_append.mp hx with h1 | h1
        · exact h x h1
        · simp at h1
          rw [h1]
  exact main _ _ (by simp)

/-- The skip reason names an analysis whose protection set contains the
key. -/
def reasonMatches (f5 : List F5Row) (fs : FS) (mode : String) (key reason : String) :
    Prop :=
  (reason = daxReasonMsg ∧ key ∈ protDax f5 fs mode)
  ∨ (reason = semReasonMsg ∧ key ∈ protSem f5 fs mode)
  ∨ (reason = sibReasonMsg ∧ key ∈ protSib f5 fs mode)
  ∨ (reason = hierReasonMsg ∧ key ∈ protHier f5 fs mode)

lemma protReason_matches (f5 : List F5Row) (fs : FS) (mode : String) (key : String)
    (h : key ∈ cleanupProtectedUnion f5 fs mode) :
    reasonMatches f5 fs mode key
      (protReason (protDax f5 fs mode) (protSem f5 fs mode) (protSib f5 fs mode) key) := by
  unfold protReason reasonMatches
  by_cases h1 : (protDax f5 fs mode).contains key
  · rw [if_pos h1]
    exact Or.inl ⟨rfl, (contains_iff_mem _ _).mp h1⟩
  · rw [if_neg h1]
    by_cases h2 : (protSem f5 fs mode).contains key
    · rw [if_pos h2]
      exact Or.inr (Or.inl ⟨rfl, (contains_iff_mem _ _).mp h2⟩)
    · rw [if_neg h2]
      by_cases h3 : (protSib f5 fs mode).contains key
      · rw [if_pos h3]
        exact Or.inr (Or.inr (Or.inl ⟨rfl, (contains_iff_mem _ _).mp h3⟩))
      · rw [if_neg h3]
        refine Or.inr (Or.inr (Or.inr ⟨rfl, ?_⟩))
        unfold cleanupProtectedUnion at h
        rcases List.mem_append.mp h with h4 | h4
        · rcases List.mem_append.mp h4 with h5 | h5
          · rcases List.mem_append.mp h5 with h6 | h6
            · exact h6
            · exact absurd ((contains_iff_mem _ _).mpr h6) h2
          · exact absurd ((contains_iff_mem _ _).mpr h5) h1
        · exact absurd ((contains_iff_mem _ _).mpr h4) h3

lemma surviving_nonempty_cand (f5 : List F5Row) (fs : FS) (mode : String)
    (h : survivingCandidates f5 fs mode ≠ []) : cleanupCandidates f5 mode ≠ [] := by
  intro hc
  apply h
  unfold survivingCandidates
  rw [hc]
  rfl

lemma run_eq_of_surviving (f5 : List F5Row) (fs : FS) (mode : String)
    (h : survivingCandidates f5 fs mode ≠ []) :
    run_tmdl_cleanup f5 fs mode =
      ⟨(pruneEmptyTables (prePruneState f5 fs mode).fs).1,
       (mutateTables fs (survivingCandidates f5 fs mode)).removed
         ++ (prePruneState f5 fs mode).items
         ++ (pruneEmptyTables (prePruneState f5 fs mode).fs).2,
       cleanupProtSkips f5 fs mode
         ++ (mutateTables fs (survivingCandidates f5 fs mode)).skipped,
       (prePruneState f5 fs mode).backups⟩ := by
  unfold run_tmdl_cleanup
  rw [if_neg (by simpa [List.isEmpty_iff] using surviving_nonempty_cand f5 fs mode h),
    if_neg (by simpa [List.isEmpty_iff] using h)]

/-! ## Concrete example directories (used by counterexamples and witnesses) -/

/-- A date table whose kept `Date` column declares a variation targeting the
hierarchy of `LocalDate`. -/
def datesLines : List String :=
  ["table Dates", "\tcolumn Date", "\t\tdataType: dateTime", "\t\tvariation Variation",
   "\t\t\tisDefault", "\t\t\tdefaultHierarchy: LocalDate." ++ qS ++ "Date Hierarchy" ++ qS,
   "", "\tpartition Dates = m", "\t\tmode: import"]

/-- The auto-generated date table: `Year`/`Month`/`MonthNo` columns, the
`Date Hierarchy` over `Year` and `Month`, and `Month` sorted by `MonthNo`. -/
def localDateLines : List String :=
  ["table LocalDate", "\tcolumn Year", "\t\tdataType: int64", "\tcolumn Month",
   "\t\tsortByColumn: MonthNo", "\tcolumn MonthNo",
   "\thierarchy " ++ qS ++ "Date Hierarchy" ++ qS,
   "\t\tlevel Year", "\t\t\tcolumn: Year", "\t\tlevel Month", "\t\t\tcolumn: Month",
   "\tpartition LocalDate = m"]

/-- A throwaway table holding one unused column. -/
def junkLines : List String :=
  ["table Junk", "\tcolumn Scrap", "\t\tdataType: int64", "\tpartition Junk = m"]

/-- A directory in which every removal candidate is structurally protected. -/
def dateExFS : FS := [("Dates", datesLines), ("LocalDate", localDateLines)]

/-- Function 5 rows flagging all three `LocalDate` columns for removal. -/
def dateExF5 : List F5Row :=
  [⟨1, "LocalDate", "Year", "Year", 0, 0, "Yes", "No"⟩,
   ⟨2, "LocalDate", "Month", "Month", 0, 0, "Yes", "No"⟩,
   ⟨3, "LocalDate", "MonthNo", "MonthNo", 0, 0, "Yes", "No"⟩,
   ⟨4, "Dates", "Date", "Date", 1, 0, "No", "No"⟩]

/-- The date directory extended with the junk table, so one candidate
survives protection. -/
def dateJunkFS : FS := [("Dates", datesLines), ("LocalDate", localDateLines), ("Junk", junkLines)]

/-- The date rows extended with the junk candidate. -/
def dateJunkF5 : List F5Row := dateExF5 ++ [⟨5, "Junk", "Scrap", "Scrap", 0, 0, "Yes", "No"⟩]

/-! ## Claim C1 -/

/-- C1 counterexample: the claim says every protected Remove=Yes candidate
is recorded as skipped with a reason naming the protecting analysis.  In
this directory every candidate is protected by the hierarchy/variation
analysis, so `run_tmdl_cleanup` takes the early "all protected" return and
records no skipped item at all (the protection subtraction itself, and the
absence of any mutation, do hold). -/
theorem c1_counterexample :
    ("LocalDate$$Year" : String) ∈ candKeys (cleanupCandidates dateExF5 "all")
    ∧ "LocalDate$$Year" ∈ cleanupProtectedUnion dateExF5 dateExFS "all"
    ∧ (run_tmdl_cleanup dateExF5 dateExFS "all").skipped = []
    ∧ (run_tmdl_cleanup dateExF5 dateExFS "all").fs = dateExFS := by
  refine ⟨by decide, by decide, ?_, ?_⟩ <;> rfl

/-- C1 (amended): before `run_tmdl_cleanup` modifies any source file, every
Remove=Yes candidate whose `TableName$$ColumnName` key lies in the union of
the four structural protection sets is removed from the deletion candidate
set, so no directly removed column or measure block has a protected key;
and, provided at least one candidate survives protection, each protected
candidate is recorded as skipped with a reason naming the analysis that
protected it (when every candidate is protected the run instead returns
early, recording nothing). -/
theorem c1_protection_subtraction (f5 : List F5Row) (fs : FS) (mode : String) :
    (∀ r ∈ survivingCandidates f5 fs mode,
      rowKey r ∉ cleanupProtectedUnion f5 fs mode)
    ∧ (∀ it ∈ (run_tmdl_cleanup f5 fs mode).removed,
        it.block_type = "column" ∨ it.block_type = "measure" →
        (it.table ++ "$$" ++ it.name) ∉ cleanupProtectedUnion f5 fs mode)
    ∧ (survivingCandidates f5 fs mode ≠ [] →
        ∀ r ∈ protectedCandidates f5 fs mode,
          ∃ s ∈ (run_tmdl_cleanup f5 fs mode).skipped,
            s.table = r.tableName ∧ s.name = r.colName
            ∧ reasonMatches f5 fs mode (rowKey r) s.reason) := by
  have hsurv : ∀ r ∈ survivingCandidates f5 fs mode,
      rowKey r ∉ cleanupProtectedUnion f5 fs mode := by
    intro r hr
    have := (List.mem_filter.mp hr).2
    intro hmem
    rw [(contains_iff_mem _ _).mpr hmem] at this
    exact absurd this (by decide)
  refine ⟨hsurv, ?_, ?_⟩
  · intro it hit hbt
    by_cases hs : survivingCandidates f5 fs mode = []
    · exfalso
      unfold run_tmdl_cleanup at hit
      by_cases hc : (cleanupCandidates f5 mode).isEmpty
      · rw [if_pos hc] at hit
        simp at hit
      · rw [if_neg hc, if_pos (by simpa [List.isEmpty_iff] using hs)] at hit
        simp at hit
    · rw [run_eq_of_surviving f5 fs mode hs] at hit
      simp only at hit
      rcases List.mem_append.mp hit with h1 | h1
      · rcases List.mem_append.mp h1 with h2 | h2
        · rcases mutateTables_removed fs _ it h2 with h3 | ⟨r, hr, he1, he2, _⟩
          · rcases hbt with hb | hb <;> rw [hb] at h3 <;> exact absurd h3 (by decide)
          · rw [he1, he2]
            exact hsurv r hr
        · have hvar : it.block_type = "variation" := by
            unfold prePruneState at h2
            simp only at h2
            by_cases hd : (mutateTables fs (survivingCandidates f5 fs mode)).deletedHier = []
            · rw [if_pos (by simpa [List.isEmpty_iff] using hd)] at h2
              simp at h2
            · rw [if_neg (by simpa [List.isEmpty_iff] using hd)] at h2
              exact orphan_items_variation _ _ _ it h2
          rcases hbt with hb | hb <;> rw [hb] at hvar <;> exact absurd hvar (by decide)
      · have := prune_items_table _ it h1
        rcases hbt with hb | hb <;> rw [hb] at this <;> exact absurd this (by decide)
  · intro hs r hr
    rw [run_eq_of_surviving f5 fs mode hs]
    have hunited : (cleanupProtectedUnion f5 fs mode).contains (rowKey r) = true :=
      (List.mem_filter.mp hr).2
    have hne : ¬(cleanupProtectedUnion f5 fs mode).isEmpty := by
      intro hemp
      rw [List.isEmpty_iff] at hemp
      rw [hemp] at hunited
      simp [List.contains] at hunited
    refine ⟨⟨r.tableName, r.colName, (_classify_item r.sourceColumn).1,
      (_classify_item r.sourceColumn).2,
      protReason (protDax f5 fs mode) (protSem f5 fs mode) (protSib f5 fs mode) (rowKey r)⟩,
      ?_, rfl, rfl, ?_⟩
    · simp only
      apply List.mem_append_left
      unfold cleanupProtSkips
      rw [if_neg hne]
      exact List.mem_map.mpr ⟨r, hr, rfl⟩
    · exact protReason_matches f5 fs mode (rowKey r)
        ((contains_iff_mem _ _).mp hunited)

/-- C1 witness: in the extended date directory one candidate (`Junk.Scrap`)
survives, and the protected candidate `LocalDate.Year` is recorded as
skipped with the hierarchy/variation reason. -/
theorem c1_witness :
    ∃ s ∈ (run_tmdl_cleanup dateJunkF5 dateJunkFS "all").skipped,
      s.table = (⟨1, "LocalDate", "Year", "Year", 0, 0, "Yes", "No"⟩ : F5Row).tableName
      ∧ s.name = (⟨1, "LocalDate", "Year", "Year", 0, 0, "Yes", "No"⟩ : F5Row).colName
      ∧ reasonMatches dateJunkF5 dateJunkFS "all"
          (rowKey ⟨1, "LocalDate", "Year", "Year", 0, 0, "Yes", "No"⟩) s.reason :=
  (c1_protection_subtraction dateJunkF5 dateJunkFS "all").2.2 (by decide)
    ⟨1, "LocalDate", "Year", "Year", 0, 0, "Yes", "No"⟩ (by decide)

/-! ## Permutation and name-preservation lemmas -/

lemma insertFileSorted_perm (x : String × List String) (l : FS) :
    (insertFileSorted x l).Perm (x :: l) := by
  induction l with
  | nil => exact List.Perm.refl _
  | cons y ys ih =>
    unfold insertFileSorted
    split
    · exact (ih.cons y).trans (List.Perm.swap x y ys)
    · exact List.Perm.refl _

lemma fsSorted_perm (fs : FS) : (fsSorted fs).Perm fs := by
  have main : ∀ (l acc : FS),
      (l.foldl (fun acc x => insertFileSorted x acc) acc).Perm (acc ++ l) := by
    intro l
    induction l with
    | nil => intro acc; simp
    | cons x xs ih =>
      intro acc
      refine (ih (insertFileSorted x acc)).trans ?_
      refine (((insertFileSorted_perm x acc).append_right xs).trans ?_)
      exact List.perm_middle.symm.trans (by simp)
  simpa using main fs []

lemma insertSorted_perm (x : String) (l : List String) :
    (insertSorted x l).Perm (x :: l) := by
  induction l with
  | nil => exact List.Perm.refl _
  | cons y ys ih =>
    unfold insertSorted
    split
    · exact (ih.cons y).trans (List.Perm.swap x y ys)
    · exact List.Perm.refl _

lemma sortStrings_perm (l : List String) : (sortStrings l).Perm l := by
  have main : ∀ (l acc : List String), ((l.foldr insertSorted acc)).Perm (l ++ acc) := by
    intro l
    induction l with
    | nil => intro acc; simp
    | cons x xs ih =>
      intro acc
      exact (insertSorted_perm x (xs.foldr insertSorted acc)).trans ((ih acc).cons x)
  simpa using main l []

/-- Distinct file names (the shape of a real directory). -/
def nodupNames (fs : FS) : Prop := (fs.map (·.1)).Nodup

instance (fs : FS) : Decidable (nodupNames fs) := by
  unfold nodupNames
  infer_instance

lemma nodupNames_inj {fs : FS} (h : nodupNames fs) {p q : String × List String}
    (hp : p ∈ fs) (hq : q ∈ fs) (he : p.1 = q.1) : p = q :=
  List.inj_on_of_nodup_map h hp hq he

lemma fsUpdate_names (fs : FS) (n : String) (l : List String) :
    (fsUpdate fs n l).map (·.1) = fs.map (·.1) := by
  unfold fsUpdate
  rw [List.map_map]
  apply List.map_congr_left
  intro p _
  by_cases h : p.1 = n <;> simp [h]

lemma mutateStep_names (surviving : List F5Row) (acc : MutateState) (t : String) :
    (mutateStep surviving acc t).fs.map (·.1) = acc.fs.map (·.1) := by
  unfold mutateStep
  cases fsFind acc.fs t with
  | none => rfl
  | some lines =>
    simp only
    split
    · exact fsUpdate_names _ _ _
    · rfl

lemma mutateTables_names (fs0 : FS) (surviving : List F5Row) :
    (mutateTables fs0 surviving).fs.map (·.1) = fs0.map (·.1) := by
  unfold mutateTables
  generalize groupTables surviving = ts
  have main : ∀ (acc : MutateState),
      (ts.foldl (mutateStep surviving) acc).fs.map (·.1) = acc.fs.map (·.1) := by
    induction ts with
    | nil => intro acc; rfl
    | cons t ts ih =>
      intro acc
      rw [List.foldl_cons, ih, mutateStep_names]
  exact main _

lemma orphanStepA_names (d : List String) (st : OrphanState) (p : String × List String) :
    (orphanStepA d st p).fs.map (·.1) = st.fs.map (·.1) := by
  unfold orphanStepA
  dsimp only
  by_cases hb : (variationBlocksToRemove d p.1 p.2).isEmpty = true
  · rw [if_pos hb]
  · rw [if_neg hb]
    exact fsUpdate_names _ _ _

lemma orphanStepB_names (st : OrphanState) (t : String) :
    (orphanStepB st t).fs.map (·.1) = st.fs.map (·.1) := by
  unfold orphanStepB
  split
  · rfl
  · split
    · rfl
    · dsimp only
      exact fsUpdate_names _ _ _

lemma orphan_names (fs : FS) (b d : List String) :
    (remove_orphaned_variations fs b d).fs.map (·.1) = fs.map (·.1) := by
  unfold remove_orphaned_variations
  split
  · rfl
  · have mA : ∀ (ps : List (String × List String)) (st : OrphanState),
        (ps.foldl (orphanStepA d) st).fs.map (·.1) = st.fs.map (·.1) := by
      intro ps
      induction ps with
      | nil => intro st; rfl
      | cons p ps ih => intro st; rw [List.foldl_cons, ih, orphanStepA_names]
    have mB : ∀ (ts : List String) (st : OrphanState),
        (ts.foldl orphanStepB st).fs.map (·.1) = st.fs.map (·.1) := by
      intro ts
      induction ts with
      | nil => intro st; rfl
      | cons t ts ih => intro st; rw [List.foldl_cons, ih, orphanStepB_names]
    rw [mB]
    show (orphanPassAState fs b d).fs.map (·.1) = fs.map (·.1)
    unfold orphanPassAState
    rw [mA]

lemma prePrune_names (f5 : List F5Row) (fs : FS) (mode : String) :
    (prePruneState f5 fs mode).fs.map (·.1) = fs.map (·.1) := by
  unfold prePruneState
  simp only
  split
  · exact mutateTables_names _ _
  · rw [orphan_names, mutateTables_names]

/-! ## Prune characterization -/

lemma prune_fold_fst (L : List (String × List String)) (acc : FS) (items : List Item) :
    (L.foldl pruneStep (acc, items)).1 =
      acc.filter (fun q => L.all (fun p => hasDeclContent p.2 || decide (q.1 ≠ p.1))) := by
  induction L generalizing acc items with
  | nil => simp
  | cons p L ih =>
    rw [List.foldl_cons]
    by_cases hd : hasDeclContent p.2
    · have hstep : pruneStep (acc, items) p = (acc, items) := by
        unfold pruneStep
        rw [if_pos hd]
      rw [hstep, ih]
      apply List.filter_congr
      intro q _
      simp [List.all_cons, hd]
    · have hstep : pruneStep (acc, items) p =
          (fsDelete acc p.1,
            items ++ [⟨p.1, "(entire table)", "Empty Table Deleted", "table"⟩]) := by
        unfold pruneStep
        rw [if_neg hd]
      rw [hstep, ih]
      unfold fsDelete
      rw [List.filter_filter]
      apply List.filter_congr
      intro q _
      simp only [List.all_cons, hd, Bool.false_or]
      cases h1 : decide (q.1 ≠ p.1) <;>
        cases h2 : L.all (fun p => hasDeclContent p.2 || decide (q.1 ≠ p.1)) <;> simp [h1, h2]

lemma prune_fold_snd (L : List (String × List String)) (acc : FS) (items : List Item) :
    (L.foldl pruneStep (acc, items)).2 =
      items ++ (L.filter (fun p => !hasDeclContent p.2)).map
        (fun p => ⟨p.1, "(entire table)", "Empty Table Deleted", "table"⟩) := by
  induction L generalizing acc items with
  | nil => simp
  | cons p L ih =>
    rw [List.foldl_cons]
    by_cases hd : hasDeclContent p.2
    · have hstep : pruneStep (acc, items) p = (acc, items) := by
        unfold pruneStep
        rw [if_pos hd]
      rw [hstep, ih, List.filter_cons_of_neg (by simp [hd])]
    · have hstep : pruneStep (acc, items) p =
          (fsDelete acc p.1,
            items ++ [⟨p.1, "(entire table)", "Empty Table Deleted", "table"⟩]) := by
        unfold pruneStep
        rw [if_neg hd]
      rw [hstep, ih, List.filter_cons_of_pos (by simp [hd])]
      simp

lemma prune_fst_of_nodup (fs : FS) (h : nodupNames fs) :
    (pruneEmptyTables fs).1 = fs.filter (fun p => hasDeclContent p.2) := by
  unfold pruneEmptyTables
  rw [prune_fold_fst]
  apply List.filter_congr
  intro q hq
  by_cases hdq : hasDeclContent q.2
  · rw [hdq]
    rw [List.all_eq_true]
    intro p hp
    by_cases hdp : hasDeclContent p.2
    · simp [hdp]
    · have hpfs : p ∈ fs := (fsSorted_perm fs).mem_iff.mp hp
      simp only [hdp, Bool.false_or, decide_eq_true_eq]
      intro he
      have : q = p := nodupNames_inj h hq hpfs he
      rw [this] at hdq
      exact hdp hdq
  · have hqs : q ∈ fsSorted fs := (fsSorted_perm fs).mem_iff.mpr hq
    rw [show hasDeclContent q.2 = false from by simpa using hdq]
    by_contra hne
    have hall : (fsSorted fs).all
        (fun p => hasDeclContent p.2 || decide (q.1 ≠ p.1)) = true := by
      cases h : (fsSorted fs).all (fun p => hasDeclContent p.2 || decide (q.1 ≠ p.1)) with
      | false => exact absurd h hne
      | true => rfl
    have := List.all_eq_true.mp hall q hqs
    simp [hdq] at this

/-! ## Claim C10 -/

/-- A table file with no column or measure declaration lines. -/
def emptyLines : List String :=
  ["table EmptyT", "\tpartition EmptyT = m", "\t\tmode: import"]

/-- The extended date directory plus an untouched empty-shell table. -/
def pruneExFS : FS := dateJunkFS ++ [("EmptyT", emptyLines)]

/-- C10: whenever `run_tmdl_cleanup` reaches its final empty-table prune
(at least one candidate survived protection), it deletes every `.tmdl` file
of the (post-mutation) directory that contains no single-tab column or
measure declaration line — including files that received no edits — and the
prune records each such file as removed while writing no backup (the run's
backup set is exactly the pre-prune backup set). -/
theorem c10_empty_table_prune (f5 : List F5Row) (fs : FS) (mode : String)
    (hs : survivingCandidates f5 fs mode ≠ []) (hnd : nodupNames fs) :
    (run_tmdl_cleanup f5 fs mode).fs =
      (prePruneState f5 fs mode).fs.filter (fun p => hasDeclContent p.2)
    ∧ (∀ p ∈ (prePruneState f5 fs mode).fs, hasDeclContent p.2 = false →
        fsFind (run_tmdl_cleanup f5 fs mode).fs p.1 = none
        ∧ (Item.mk p.1 "(entire table)" "Empty Table Deleted" "table")
            ∈ (run_tmdl_cleanup f5 fs mode).removed)
    ∧ (run_tmdl_cleanup f5 fs mode).backups = (prePruneState f5 fs mode).backups := by
  have hnd2 : nodupNames (prePruneState f5 fs mode).fs := by
    unfold nodupNames
    rw [prePrune_names]
    exact hnd
  rw [run_eq_of_surviving f5 fs mode hs]
  refine ⟨?_, ?_, rfl⟩
  · exact prune_fst_of_nodup _ hnd2
  · intro p hp hdp
    constructor
    · simp only [prune_fst_of_nodup _ hnd2]
      rw [fsFind]
      have hfind : List.find? (fun q => decide (q.1 = p.1))
          (List.filter (fun p => hasDeclContent p.2) (prePruneState f5 fs mode).fs)
          = none := by
        rw [List.find?_eq_none]
        intro q hq he
        obtain ⟨hqfs, hqd⟩ := List.mem_filter.mp hq
        have : q = p := nodupNames_inj hnd2 hqfs hp (of_decide_eq_true he)
        rw [this] at hqd
        rw [hdp] at hqd
        exact absurd hqd (by decide)
      rw [hfind]
      rfl
    · have hmem3 : (Item.mk p.1 "(entire table)" "Empty Table Deleted" "table")
          ∈ (pruneEmptyTables (prePruneState f5 fs mode).fs).2 := by
        unfold pruneEmptyTables
        rw [prune_fold_snd]
        simp only [List.nil_append]
        apply List.mem_map.mpr
        refine ⟨p, ?_, rfl⟩
        apply List.mem_filter.mpr
        exact ⟨(fsSorted_perm _).mem_iff.mpr hp, by simp [hdp]⟩
      simp [List.mem_append, hmem3]

/-- C10 witness: in a concrete run with a surviving candidate, the untouched
empty-shell table file is deleted and reported. -/
theorem c10_witness :
    fsFind (run_tmdl_cleanup dateJunkF5 pruneExFS "all").fs "EmptyT" = none
    ∧ (Item.mk "EmptyT" "(entire table)" "Empty Table Deleted" "table")
        ∈ (run_tmdl_cleanup dateJunkF5 pruneExFS "all").removed :=
  (c10_empty_table_prune dateJunkF5 pruneExFS "all" (by decide) (by decide)).2.1
    ("EmptyT", emptyLines) (by decide) (by decide)

/-! ## File-lookup lemmas -/

lemma fsFind_cons (p : String × List String) (ps : FS) (m : String) :
    fsFind (p :: ps) m = if p.1 = m then some p.2 else fsFind ps m := by
  unfold fsFind
  by_cases h : p.1 = m
  · rw [List.find?_cons_of_pos _ (by simpa using h), if_pos h]
    rfl
  · rw [List.find?_cons_of_neg _ (by simpa using h), if_neg h]

lemma fsFind_update_other (fs : FS) (n : String) (l : List String) (m : String)
    (h : m ≠ n) : fsFind (fsUpdate fs n l) m = fsFind fs m := by
  induction fs with
  | nil => rfl
  | cons p ps ih =>
    rw [show fsUpdate (p :: ps) n l
        = (if p.1 = n then (p.1, l) else p) :: fsUpdate ps n l from rfl]
    by_cases hp : p.1 = n
    · have hpm : p.1 ≠ m := by
        rw [hp]
        exact fun hh => h hh.symm
      rw [if_pos hp, fsFind_cons, fsFind_cons, if_neg hpm, if_neg hpm, ih]
    · rw [if_neg hp, fsFind_cons, fsFind_cons, ih]

lemma fsFind_update_self (fs : FS) (n : String) (l : List String)
    (h : (fsFind fs n).isSome = true) : fsFind (fsUpdate fs n l) n = some l := by
  induction fs with
  | nil => simp [fsFind] at h
  | cons p ps ih =>
    rw [show fsUpdate (p :: ps) n l
        = (if p.1 = n then (p.1, l) else p) :: fsUpdate ps n l from rfl]
    by_cases hp : p.1 = n
    · rw [if_pos hp, fsFind_cons]
      rw [if_pos hp]
    · rw [if_neg hp, fsFind_cons, if_neg hp]
      apply ih
      rw [fsFind_cons, if_neg hp] at h
      exact h

lemma fsFind_of_mem_nodup {fs : FS} (hnd : nodupNames fs) {q : String × List String}
    (hq : q ∈ fs) : fsFind fs q.1 = some q.2 := by
  induction fs with
  | nil => cases hq
  | cons p ps ih =>
    rw [fsFind_cons]
    by_cases hp : p.1 = q.1
    · have : p = q := nodupNames_inj hnd (List.mem_cons_self p ps) hq hp
      rw [if_pos hp, this]
    · rw [if_neg hp]
      have hq' : q ∈ ps := by
        rcases List.mem_cons.mp hq with h1 | h1
        · exact absurd (by rw [h1]) hp
        · exact h1
      have hnd' : nodupNames ps := by
        have h2 := hnd
        unfold nodupNames at h2 ⊢
        rw [List.map_cons] at h2
        exact h2.of_cons
      exact ih hnd' hq'

lemma fsFind_some_mem (fs : FS) (n : String) (L : List String)
    (h : fsFind fs n = some L) : (n, L) ∈ fs := by
  unfold fsFind at h
  cases hf : fs.find? (fun p => p.1 = n) with
  | none =>
    rw [hf] at h
    cases h
  | some q =>
    rw [hf] at h
    have hm := List.mem_of_find?_eq_some hf
    have h1 : q.1 = n := by simpa using List.find?_some hf
    have h2 : some q.2 = some L := h
    have h3 : q.2 = L := by injection h2
    have : (n, L) = q := by
      rw [← h1, ← h3]
    rw [this]
    exact hm

/-! ## Pass characterization of the orphaned-variation cleanup -/

/-- The file names of a directory listing. -/
def namesOf (ps : List (String × List String)) : List String := ps.map (·.1)

lemma orphanStepA_find_self (deleted : List String) (st : OrphanState)
    (p : String × List String) (h : fsFind st.fs p.1 = some p.2) :
    fsFind (orphanStepA deleted st p).fs p.1
      = some (orphanTransformA deleted p.1 p.2) := by
  unfold orphanStepA orphanTransformA
  dsimp only
  by_cases hb : (variationBlocksToRemove deleted p.1 p.2).isEmpty = true
  · rw [if_pos hb, if_pos hb]
    exact h
  · rw [if_neg hb, if_neg hb]
    exact fsFind_update_self _ _ _ (by rw [h]; rfl)

lemma orphanStepA_find_other (deleted : List String) (st : OrphanState)
    (p : String × List String) (m : String) (hm : m ≠ p.1) :
    fsFind (orphanStepA deleted st p).fs m = fsFind st.fs m := by
  unfold orphanStepA
  dsimp only
  split
  · rfl
  · exact fsFind_update_other _ _ _ _ hm

lemma foldA_find (deleted : List String) (PS : List (String × List String))
    (st : OrphanState) (hnd : (namesOf PS).Nodup)
    (hsnap : ∀ q ∈ PS, fsFind st.fs q.1 = some q.2) :
    (∀ q ∈ PS, fsFind ((PS.foldl (orphanStepA deleted) st)).fs q.1
        = some (orphanTransformA deleted q.1 q.2))
    ∧ (∀ n, n ∉ namesOf PS →
        fsFind ((PS.foldl (orphanStepA deleted) st)).fs n = fsFind st.fs n) := by
  induction PS generalizing st with
  | nil => exact ⟨by simp, fun n _ => rfl⟩
  | cons p rest ih =>
    have hnd' : (namesOf rest).Nodup := by
      have h2 := hnd
      unfold namesOf at h2 ⊢
      rw [List.map_cons] at h2
      exact h2.of_cons
    have hpn : p.1 ∉ namesOf rest := by
      have h2 := hnd
      unfold namesOf at h2
      rw [List.map_cons] at h2
      exact (List.nodup_cons.mp h2).1
    have hsnap' : ∀ q ∈ rest, fsFind (orphanStepA deleted st p).fs q.1 = some q.2 := by
      intro q hq
      rw [orphanStepA_find_other deleted st p q.1
        (fun he => hpn (he ▸ List.mem_map_of_mem (·.1) hq))]
      exact hsnap q (List.mem_cons_of_mem _ hq)
    obtain ⟨ih1, ih2⟩ := ih (orphanStepA deleted st p) hnd' hsnap'
    constructor
    · intro q hq
      rw [List.foldl_cons]
      rcases List.mem_cons.mp hq with h1 | h1
      · rw [h1]
        rw [ih2 p.1 hpn]
        exact orphanStepA_find_self deleted st p (hsnap p (List.mem_cons_self _ _))
      · exact ih1 q h1
    · intro n hn
      have hn1 : n ≠ p.1 := fun he => hn (by rw [he]; exact List.mem_cons_self _ _)
      have hn2 : n ∉ namesOf rest := fun he => hn (List.mem_cons_of_mem _ he)
      rw [List.foldl_cons, ih2 n hn2, orphanStepA_find_other deleted st p n hn1]

/-- The per-file effect of the marker-stripping pass on a file it
considers. -/
def markerTransform (lines : List String) : List String :=
  if containsSub (String.intercalate "\n" lines) "\tshowAsVariationsOnly"
  then markerStrip lines else lines

lemma orphanStepB_find_self (st : OrphanState) (t : String) :
    fsFind (orphanStepB st t).fs t = (fsFind st.fs t).map markerTransform := by
  unfold orphanStepB
  cases hf : fsFind st.fs t with
  | none => exact hf
  | some L =>
    dsimp only
    by_cases hc : containsSub (String.intercalate "\n" L) "\tshowAsVariationsOnly" = true
    · rw [if_neg (by simp [hc])]
      show fsFind (fsUpdate st.fs t (markerStrip L)) t = Option.map markerTransform (some L)
      rw [fsFind_update_self st.fs t (markerStrip L) (by rw [hf]; rfl)]
      simp [markerTransform, hc]
    · rw [if_pos (by simpa using hc), hf]
      simp [markerTransform, hc]

lemma orphanStepB_find_other (st : OrphanState) (t m : String) (hm : m ≠ t) :
    fsFind (orphanStepB st t).fs m = fsFind st.fs m := by
  unfold orphanStepB
  cases fsFind st.fs t with
  | none => rfl
  | some L =>
    dsimp only
    split
    · rfl
    · exact fsFind_update_other _ _ _ _ hm

lemma foldB_find (TS : List String) (st : OrphanState) (hnd : TS.Nodup) :
    (∀ t ∈ TS, fsFind ((TS.foldl orphanStepB st)).fs t
        = (fsFind st.fs t).map markerTransform)
    ∧ (∀ n, n ∉ TS → fsFind ((TS.foldl orphanStepB st)).fs n = fsFind st.fs n) := by
  induction TS generalizing st with
  | nil => exact ⟨by simp, fun n _ => rfl⟩
  | cons t rest ih =>
    have hnd' : rest.Nodup := hnd.of_cons
    have htn : t ∉ rest := (List.nodup_cons.mp hnd).1
    obtain ⟨ih1, ih2⟩ := ih (orphanStepB st t) hnd'
    constructor
    · intro u hu
      rw [List.foldl_cons]
      rcases List.mem_cons.mp hu with h1 | h1
      · rw [h1, ih2 t htn, orphanStepB_find_self]
      · rw [ih1 u h1, orphanStepB_find_other st t u
          (fun he => htn (he ▸ h1))]
    · intro n hn
      have hn1 : n ≠ t := fun he => hn (by rw [he]; exact List.mem_cons_self _ _)
      have hn2 : n ∉ rest := fun he => hn (List.mem_cons_of_mem _ he)
      rw [List.foldl_cons, ih2 n hn2, orphanStepB_find_other st t n hn1]

/-! ## Assembled characterization of `remove_orphaned_variations` -/

lemma namesOf_sorted_nodup (fs : FS) (hnd : nodupNames fs) :
    (namesOf (fsSorted fs)).Nodup := by
  have hp : ((fsSorted fs).map (·.1)).Perm (fs.map (·.1)) :=
    (fsSorted_perm fs).map (·.1)
  exact hp.nodup_iff.mpr hnd

lemma orphanTruly_nodup (fs : FS) (b d : List String) :
    (orphanTruly fs b d).Nodup := by
  unfold orphanTruly
  exact ((sortStrings_perm _).nodup_iff).mpr ((List.nodup_dedup _).filter _)

lemma orphan_find (fs : FS) (backups deleted : List String)
    (hnd : nodupNames fs) (hne : deleted ≠ [])
    (n : String) (L : List String) (h : fsFind fs n = some L) :
    fsFind (remove_orphaned_variations fs backups deleted).fs n =
      some (if n ∈ orphanTruly fs backups deleted
            then markerTransform (orphanTransformA deleted n L)
            else orphanTransformA deleted n L) := by
  unfold remove_orphaned_variations
  rw [if_neg (by simpa using hne)]
  have hsnap : ∀ q ∈ fsSorted fs,
      fsFind (OrphanState.mk fs backups []).fs q.1 = some q.2 := by
    intro q hq
    exact fsFind_of_mem_nodup hnd ((fsSorted_perm fs).mem_iff.mp hq)
  obtain ⟨hA1, _⟩ := foldA_find deleted (fsSorted fs) ⟨fs, backups, []⟩
    (namesOf_sorted_nodup fs hnd) hsnap
  have hmem : (n, L) ∈ fsSorted fs :=
    (fsSorted_perm fs).mem_iff.mpr (fsFind_some_mem fs n L h)
  have hA : fsFind (orphanPassAState fs backups deleted).fs n
      = some (orphanTransformA deleted n L) := hA1 (n, L) hmem
  obtain ⟨hB1, hB2⟩ := foldB_find (orphanTruly fs backups deleted)
    (orphanPassAState fs backups deleted) (orphanTruly_nodup fs backups deleted)
  by_cases hm : n ∈ orphanTruly fs backups deleted
  · rw [if_pos hm, hB1 n hm, hA]
    rfl
  · rw [if_neg hm, hB2 n hm, hA]

lemma orphanStepA_items_mono (deleted : List String) (st : OrphanState)
    (p : String × List String) (x : Item) (hx : x ∈ st.items) :
    x ∈ (orphanStepA deleted st p).items := by
  unfold orphanStepA
  dsimp only
  split
  · exact hx
  · exact List.mem_append_left _ hx

lemma orphanStepA_items_add (deleted : List String) (st : OrphanState)
    (p : String × List String) (x : Item)
    (hx : x ∈ (variationBlocksToRemove deleted p.1 p.2).map (·.2)) :
    x ∈ (orphanStepA deleted st p).items := by
  unfold orphanStepA
  dsimp only
  by_cases hb : (variationBlocksToRemove deleted p.1 p.2).isEmpty = true
  · exfalso
    rw [List.isEmpty_iff] at hb
    rw [hb] at hx
    simp at hx
  · rw [if_neg hb]
    exact List.mem_append_right _ hx

lemma foldA_items_mono (deleted : List String) (PS : List (String × List String))
    (st : OrphanState) (x : Item) (hx : x ∈ st.items) :
    x ∈ (PS.foldl (orphanStepA deleted) st).items := by
  induction PS generalizing st with
  | nil => exact hx
  | cons p rest ih =>
    rw [List.foldl_cons]
    exact ih _ (orphanStepA_items_mono deleted st p x hx)

lemma foldA_items_mem (deleted : List String) (PS : List (String × List String))
    (st : OrphanState) (p : String × List String) (hp : p ∈ PS) (x : Item)
    (hx : x ∈ (variationBlocksToRemove deleted p.1 p.2).map (·.2)) :
    x ∈ (PS.foldl (orphanStepA deleted) st).items := by
  induction PS generalizing st with
  | nil => cases hp
  | cons q rest ih =>
    rw [List.foldl_cons]
    rcases List.mem_cons.mp hp with h1 | h1
    · subst h1
      exact foldA_items_mono deleted rest _ x (orphanStepA_items_add deleted st p x hx)
    · exact ih _ h1

lemma foldB_items (TS : List String) (st : OrphanState) :
    (TS.foldl orphanStepB st).items = st.items := by
  induction TS generalizing st with
  | nil => rfl
  | cons t rest ih =>
    rw [List.foldl_cons, ih, orphanStepB_items]

lemma orphan_items_mem (fs : FS) (backups deleted : List String)
    (hne : deleted ≠ []) (p : String × List String) (hp : p ∈ fs) (x : Item)
    (hx : x ∈ (variationBlocksToRemove deleted p.1 p.2).map (·.2)) :
    x ∈ (remove_orphaned_variations fs backups deleted).items := by
  unfold remove_orphaned_variations
  rw [if_neg (by simpa using hne), foldB_items]
  show x ∈ (orphanPassAState fs backups deleted).items
  unfold orphanPassAState
  exact foldA_items_mem deleted (fsSorted fs) _ p
    ((fsSorted_perm fs).mem_iff.mpr hp) x hx

lemma variation_discovery (deleted : List String) (tname : String)
    (lines : List String) (i : Nat) (vn : String)
    (hi : i < lines.length) (hv : variationNameCap (lines.getD i "") = some vn)
    (j : Nat) (hj1 : i ≤ j) (hj2 : j < (find_variation_range lines i).2)
    (g : String) (hg1 : defaultHierCap (lines.getD j "") = some g)
    (hg2 : pyStrip g ∈ deleted) :
    (find_variation_range lines i,
      (⟨tname, vn, "Variation (cascade)", "variation"⟩ : Item))
      ∈ variationBlocksToRemove deleted tname lines := by
  have hr1 : (find_variation_range lines i).1 = i := rfl
  unfold variationBlocksToRemove
  apply List.mem_filterMap.mpr
  refine ⟨i, List.mem_range.mpr hi, ?_⟩
  rw [hv]
  dsimp only
  split
  · rfl
  · rename_i hcond
    exfalso
    apply hcond
    apply List.any_eq_true.mpr
    refine ⟨j - i, List.mem_range.mpr (by omega), ?_⟩
    dsimp only
    rw [hr1, show i + (j - i) = j from by omega, hg1]
    exact (contains_iff_mem _ _).mpr hg2

/-- C3: cascade completeness of `remove_orphaned_variations`.  Over a
directory with distinct file names and a nonempty list of deleted hierarchy
qualified names: (1) every variation sub-block of every file whose range
contains a `defaultHierarchy:` reference whose stripped target is a deleted
hierarchy is discovered — its block is among the blocks spliced out of that
file and a `Variation (cascade)` report row for it is emitted; (2) every
file's final content is exactly the splice removing all discovered
variation blocks of that file, additionally marker-stripped exactly when
the file is a truly orphaned variation target; (3) every deleted
hierarchy's table that is no longer referenced by any remaining
`defaultHierarchy` after the variation pass, and whose spliced content
still carries the tab-indented `showAsVariationsOnly` marker, ends the run
with no line stripping to `showAsVariationsOnly` in its final content. -/
theorem c3_variation_cascade (fs : FS) (backups deleted : List String)
    (hnd : nodupNames fs) (hne : deleted ≠ []) :
    (∀ p ∈ fs, ∀ i vn, i < p.2.length →
      variationNameCap (p.2.getD i "") = some vn →
      (∃ j, i ≤ j ∧ j < (find_variation_range p.2 i).2 ∧
        ∃ g, defaultHierCap (p.2.getD j "") = some g ∧ pyStrip g ∈ deleted) →
      (find_variation_range p.2 i,
        (⟨p.1, vn, "Variation (cascade)", "variation"⟩ : Item))
          ∈ variationBlocksToRemove deleted p.1 p.2 ∧
      (⟨p.1, vn, "Variation (cascade)", "variation"⟩ : Item)
          ∈ (remove_orphaned_variations fs backups deleted).items)
    ∧ (∀ p ∈ fs,
        fsFind (remove_orphaned_variations fs backups deleted).fs p.1 =
          some (if p.1 ∈ orphanTruly fs backups deleted
                then markerTransform (orphanTransformA deleted p.1 p.2)
                else orphanTransformA deleted p.1 p.2))
    ∧ (∀ h ∈ deleted, ∀ L,
        stillReferenced (orphanPassAState fs backups deleted).fs
          (hierTableName h) = false →
        fsFind fs (hierTableName h) = some L →
        containsSub (String.intercalate "\n"
            (orphanTransformA deleted (hierTableName h) L))
          "\tshowAsVariationsOnly" = true →
        ∃ M, fsFind (remove_orphaned_variations fs backups deleted).fs
            (hierTableName h) = some M ∧
          ∀ l ∈ M, pyStrip l ≠ "showAsVariationsOnly") := by
  refine ⟨?_, ?_, ?_⟩
  · intro p hp i vn hi hv href
    obtain ⟨j, hj1, hj2, g, hg1, hg2⟩ := href
    have hblock := variation_discovery deleted p.1 p.2 i vn hi hv j hj1 hj2 g hg1 hg2
    refine ⟨hblock, ?_⟩
    exact orphan_items_mem fs backups deleted hne p hp _
      (List.mem_map_of_mem (·.2) hblock)
  · intro p hp
    exact orphan_find fs backups deleted hnd hne p.1 p.2
      (fsFind_of_mem_nodup hnd hp)
  · intro h hh L hstill hfind hmark
    have htruly : hierTableName h ∈ orphanTruly fs backups deleted := by
      apply (sortStrings_perm _).mem_iff.mpr
      apply List.mem_filter.mpr
      refine ⟨List.mem_dedup.mpr (List.mem_map_of_mem hierTableName hh), ?_⟩
      rw [hstill]
      rfl
    refine ⟨markerStrip (orphanTransformA deleted (hierTableName h) L), ?_, ?_⟩
    · rw [orphan_find fs backups deleted hnd hne (hierTableName h) L hfind,
        if_pos htruly]
      unfold markerTransform
      rw [if_pos hmark]
    · intro l hl
      have := (List.mem_filter.mp hl).2
      simpa using this

/-! ## A concrete two-table model exercising the cascade -/

/-- `table Facts` with a variation-target marker and one hierarchy `'H'`. -/
def factsLines : List String :=
  ["table Facts", "\tshowAsVariationsOnly", "\tcolumn Amount",
   "\t\tdataType: int64", "\thierarchy " ++ qS ++ "H" ++ qS, "\t\tlevel L",
   "\t\t\tcolumn: Amount", "\tpartition Facts = m"]

/-- `table Other` with a duplicated `column Real` declaration, a variation
pointing at the `Facts` hierarchy, and a kept column. -/
def otherLines : List String :=
  ["table Other", "\tcolumn Real", "\t\tdataType: int64",
   "\tcolumn Real", "\t\tvariation Variation",
   "\t\t\tdefaultHierarchy: Facts." ++ qS ++ "H" ++ qS,
   "\tcolumn Keep2", "\t\tdataType: int64",
   "\tpartition Other = m"]

def exFS2 : FS := [("Facts", factsLines), ("Other", otherLines), ("EmptyT", emptyLines)]

/-- The qualified name of the `Facts` hierarchy. -/
def hierQ : String := "Facts." ++ qS ++ "H" ++ qS

/-- Function 5 rows marking `Facts.Amount` and `Other.Real` for removal and
keeping `Other.Keep2`. -/
def exF5b : List F5Row :=
  [⟨1, "Facts", "Amount", "Amount", 0, 0, "Yes", "No"⟩,
   ⟨2, "Other", "Real", "Real", 0, 0, "Yes", "No"⟩,
   ⟨3, "Other", "Keep2", "Keep2", 1, 0, "No", "No"⟩]

theorem c3_witness :
    nodupNames exFS2 ∧ ([hierQ] ≠ ([] : List String)) ∧
    (find_variation_range otherLines 4,
      (⟨"Other", "Variation", "Variation (cascade)", "variation"⟩ : Item))
        ∈ variationBlocksToRemove [hierQ] "Other" otherLines ∧
    (⟨"Other", "Variation", "Variation (cascade)", "variation"⟩ : Item)
        ∈ (remove_orphaned_variations exFS2 [] [hierQ]).items := by
  have h := (c3_variation_cascade exFS2 [] [hierQ] (by decide) (by decide)).1
    ("Other", otherLines) (by decide) 4 "Variation" (by decide) (by decide)
    ⟨5, by decide, by decide, "Facts." ++ qS ++ "H" ++ qS, by decide, by decide⟩
  exact ⟨by decide, by decide, h.1, h.2⟩

/-! ## Splice characterization for bottom-up block removal -/

/-- Well-formed descending block list: each block is nonempty, ends at or
below `len`, and lies strictly above every later block. -/
def blocksOk (len : Nat) : List (Nat × Nat) → Prop
  | [] => True
  | b :: rest => b.1 < b.2 ∧ b.2 ≤ len ∧ (∀ c ∈ rest, c.2 ≤ b.1) ∧ blocksOk b.1 rest

lemma blocksOk_mono {len len' : Nat} (h : len ≤ len') (bs : List (Nat × Nat))
    (hb : blocksOk len bs) : blocksOk len' bs := by
  cases bs with
  | nil => trivial
  | cons b rest =>
    unfold blocksOk at hb ⊢
    exact ⟨hb.1, le_trans hb.2.1 h, hb.2.2.1, hb.2.2.2⟩

lemma delRange_append (A B : List String) (b : Nat × Nat)
    (hs : b.1 ≤ A.length) (he : b.2 ≤ A.length) :
    delRange (A ++ B) b = delRange A b ++ B := by
  unfold delRange
  rw [List.take_append_of_le_length hs, List.drop_append_of_le_length he,
    List.append_assoc]

lemma applyBlocksDesc_append (A B : List String) (bs : List (Nat × Nat))
    (h : blocksOk A.length bs) :
    applyBlocksDesc (A ++ B) bs = applyBlocksDesc A bs ++ B := by
  induction bs generalizing A with
  | nil => rfl
  | cons b rest ih =>
    unfold blocksOk at h
    show applyBlocksDesc (delRange (A ++ B) b) rest
      = applyBlocksDesc (delRange A b) rest ++ B
    rw [delRange_append A B b (le_of_lt (lt_of_lt_of_le h.1 h.2.1)) h.2.1]
    apply ih
    have hlen : b.1 ≤ (delRange A b).length := by
      unfold delRange
      rw [List.length_append, List.length_take]
      omega
    exact blocksOk_mono hlen _ h.2.2.2

/-- Index `k` lies inside one of the blocks. -/
def coveredBy (bs : List (Nat × Nat)) (k : Nat) : Bool :=
  bs.any (fun b => decide (b.1 ≤ k) && decide (k < b.2))

lemma coveredBy_of_mem (bs : List (Nat × Nat)) (b : Nat × Nat) (hb : b ∈ bs)
    (k : Nat) (h1 : b.1 ≤ k) (h2 : k < b.2) : coveredBy bs k = true := by
  unfold coveredBy
  apply List.any_eq_true.mpr
  exact ⟨b, hb, by simp [h1, h2]⟩

lemma coveredBy_perm {bs cs : List (Nat × Nat)} (hp : bs.Perm cs) (k : Nat) :
    coveredBy bs k = coveredBy cs k := by
  unfold coveredBy
  have h1 : (bs.any (fun b => decide (b.1 ≤ k) && decide (k < b.2)) = true)
      ↔ (cs.any (fun b => decide (b.1 ≤ k) && decide (k < b.2)) = true) := by
    simp only [List.any_eq_true]
    constructor
    · rintro ⟨x, hx, hfx⟩; exact ⟨x, hp.mem_iff.mp hx, hfx⟩
    · rintro ⟨x, hx, hfx⟩; exact ⟨x, hp.mem_iff.mpr hx, hfx⟩
  exact Bool.eq_iff_iff.mpr h1

lemma applyBlocksDesc_mem (lines : List String) (bs : List (Nat × Nat))
    (h : blocksOk lines.length bs) (x : String)
    (hx : x ∈ applyBlocksDesc lines bs) :
    ∃ k, k < lines.length ∧ coveredBy bs k = false ∧ x = lines.getD k "" := by
  induction bs generalizing lines with
  | nil =>
    obtain ⟨n, hn, he⟩ := List.getElem_of_mem (show x ∈ lines from hx)
    exact ⟨n, hn, rfl, by rw [List.getD_eq_getElem lines "" hn, he]⟩
  | cons b rest ih =>
    unfold blocksOk at h
    obtain ⟨h1, h2, h3, h4⟩ := h
    have hsA : b.1 ≤ lines.length := le_of_lt (lt_of_lt_of_le h1 h2)
    have htlen : (lines.take b.1).length = b.1 := by
      rw [List.length_take]; omega
    have hsplit : applyBlocksDesc lines (b :: rest)
        = applyBlocksDesc (lines.take b.1) rest ++ lines.drop b.2 := by
      show applyBlocksDesc (delRange lines b) rest = _
      show applyBlocksDesc (lines.take b.1 ++ lines.drop b.2) rest = _
      apply applyBlocksDesc_append
      rw [htlen]
      exact h4
    rw [hsplit] at hx
    rcases List.mem_append.mp hx with hl | hr
    · obtain ⟨k, hk1, hk2, hk3⟩ := ih (lines.take b.1) (by rw [htlen]; exact h4) hl
      rw [htlen] at hk1
      refine ⟨k, by omega, ?_, ?_⟩
      · unfold coveredBy at hk2 ⊢
        simp only [List.any_cons, Bool.or_eq_false_iff]
        refine ⟨?_, hk2⟩
        have hnk : ¬ (b.1 ≤ k) := by omega
        simp [hnk]
      · rw [hk3, List.getD_eq_getElem?_getD, List.getD_eq_getElem?_getD,
          List.getElem?_take, if_pos hk1]
    · obtain ⟨m, hm, he⟩ := List.getElem_of_mem hr
      rw [List.length_drop] at hm
      have hk : b.2 + m < lines.length := by omega
      refine ⟨b.2 + m, hk, ?_, ?_⟩
      · unfold coveredBy
        simp only [List.any_cons, Bool.or_eq_false_iff]
        constructor
        · have hnk : ¬ (b.2 + m < b.2) := by omega
          simp [hnk]
        · apply List.any_eq_false.mpr
          intro c hc
          have hce := h3 c hc
          have hnk : ¬ (b.2 + m < c.2) := by omega
          simp [hnk]
      · rw [← he, List.getElem_drop, List.getD_eq_getElem lines "" hk]

lemma applyBlocksDesc_subset (lines : List String) (bs : List (Nat × Nat))
    (x : String) (hx : x ∈ applyBlocksDesc lines bs) : x ∈ lines := by
  induction bs generalizing lines with
  | nil => exact hx
  | cons b rest ih =>
    have hm := ih (delRange lines b) hx
    unfold delRange at hm
    rcases List.mem_append.mp hm with h | h
    · exact List.take_subset _ _ h
    · exact List.drop_subset _ _ h

/-! ## Block-end bounds -/

lemma findBlockEndAux_ge (lines : List String) (fuel idx : Nat) :
    idx ≤ findBlockEndAux lines fuel idx := by
  induction fuel generalizing idx with
  | zero => exact le_refl idx
  | succ fuel ih =>
    unfold findBlockEndAux
    by_cases h1 : idx < lines.length
    · rw [if_pos h1]
      by_cases h2 : siblingLine (lines.getD idx "") = true
      · rw [if_pos h2]
      · rw [if_neg h2]
        exact le_trans (Nat.le_succ idx) (ih (idx + 1))
    · rw [if_neg h1]

lemma findBlockEndAux_le (lines : List String) (fuel idx : Nat)
    (h : idx ≤ lines.length) : findBlockEndAux lines fuel idx ≤ lines.length := by
  induction fuel generalizing idx with
  | zero => exact h
  | succ fuel ih =>
    unfold findBlockEndAux
    by_cases h1 : idx < lines.length
    · rw [if_pos h1]
      by_cases h2 : siblingLine (lines.getD idx "") = true
      · rw [if_pos h2]; exact h
      · rw [if_neg h2]; exact ih (idx + 1) h1
    · rw [if_neg h1]; exact h

lemma findBlockEndAux_le_sibling (lines : List String) (fuel idx j : Nat)
    (hij : idx ≤ j) (hfuel : j ≤ idx + fuel) (hjlen : j < lines.length)
    (hj : siblingLine (lines.getD j "") = true) :
    findBlockEndAux lines fuel idx ≤ j := by
  induction fuel generalizing idx with
  | zero =>
    have he : idx = j := by omega
    subst he
    exact le_refl idx
  | succ fuel ih =>
    unfold findBlockEndAux
    by_cases h1 : idx < lines.length
    · by_cases h2 : siblingLine (lines.getD idx "") = true
      · rw [if_pos h1, if_pos h2]; exact hij
      · rw [if_pos h1, if_neg h2]
        have hne : idx ≠ j := fun he => h2 (he ▸ hj)
        exact ih (idx + 1) (by omega) (by omega)
    · omega

/-! ## Declaration lines are sibling lines -/

lemma declMatch_prefixThenWs (kw name : List Char) (tail : List Char → Bool)
    (cs : List Char) (h : declMatch kw name tail cs = true) :
    prefixThenWs kw cs = true := by
  unfold declMatch at h
  unfold prefixThenWs
  cases hd : dropPre kw cs with
  | none => rw [hd] at h; cases h
  | some rest =>
    rw [hd] at h
    cases rest with
    | nil =>
      exfalso
      simp [wsPlusSplits] at h
    | cons c r =>
      by_cases hc : pyWs c = true
      · exact hc
      · exfalso
        have hc' : pyWs c = false := by
          revert hc; cases pyWs c <;> simp
        simp [wsPlusSplits, hc'] at h

lemma columnDeclB_sibling (name line : String) (h : columnDeclB name line = true) :
    siblingLine line = true := by
  unfold columnDeclB at h
  have hp := declMatch_prefixThenWs _ _ _ _ h
  unfold siblingLine
  simp only [Bool.or_eq_true]
  exact Or.inl (Or.inl (Or.inl (Or.inl hp)))

lemma measureDeclB_sibling (name line : String) (h : measureDeclB name line = true) :
    siblingLine line = true := by
  unfold measureDeclB at h
  have hp := declMatch_prefixThenWs _ _ _ _ h
  unfold siblingLine
  simp only [Bool.or_eq_true]
  exact Or.inl (Or.inl (Or.inl (Or.inr hp)))

lemma hierarchyStartB_sibling (line : String) (h : hierarchyStartB line = true) :
    siblingLine line = true := by
  unfold hierarchyStartB at h
  unfold siblingLine
  simp only [Bool.or_eq_true]
  exact Or.inl (Or.inl (Or.inr h))

lemma itemPattern_sibling (it : Item) (line : String)
    (h : itemPattern it line = true) : siblingLine line = true := by
  unfold itemPattern at h
  split at h
  · exact measureDeclB_sibling _ _ h
  · exact columnDeclB_sibling _ _ h

/-! ## The descending block sort -/

lemma insertBlockDesc_perm (b : Nat × Nat) (l : List (Nat × Nat)) :
    (insertBlockDesc b l).Perm (b :: l) := by
  induction l with
  | nil => exact List.Perm.refl _
  | cons c cs ih =>
    unfold insertBlockDesc
    by_cases h : b.1 > c.1
    · rw [if_pos h]
    · rw [if_neg h]
      exact (ih.cons c).trans (List.Perm.swap b c cs)

lemma foldl_insertBlockDesc_perm (l acc : List (Nat × Nat)) :
    (l.foldl (fun a b => insertBlockDesc b a) acc).Perm (l ++ acc) := by
  induction l generalizing acc with
  | nil => exact List.Perm.refl _
  | cons b bs ih =>
    rw [List.foldl_cons]
    refine (ih (insertBlockDesc b acc)).trans ?_
    refine (List.Perm.append_left bs (insertBlockDesc_perm b acc)).trans ?_
    exact List.perm_middle

lemma sortBlocksDesc_perm (bs : List (Nat × Nat)) : (sortBlocksDesc bs).Perm bs := by
  have h := foldl_insertBlockDesc_perm bs []
  simpa using h

lemma insertBlockDesc_sorted (b : Nat × Nat) (l : List (Nat × Nat))
    (h : l.Pairwise (fun x y => y.1 ≤ x.1)) :
    (insertBlockDesc b l).Pairwise (fun x y => y.1 ≤ x.1) := by
  induction l with
  | nil => exact List.pairwise_singleton _ _
  | cons c cs ih =>
    obtain ⟨hhead, htail⟩ := List.pairwise_cons.mp h
    unfold insertBlockDesc
    by_cases hb : b.1 > c.1
    · rw [if_pos hb]
      apply List.pairwise_cons.mpr
      refine ⟨?_, h⟩
      intro y hy
      rcases List.mem_cons.mp hy with h1 | h1
      · rw [h1]; omega
      · have := hhead y h1; omega
    · rw [if_neg hb]
      apply List.pairwise_cons.mpr
      refine ⟨?_, ih htail⟩
      intro y hy
      rcases List.mem_cons.mp ((insertBlockDesc_perm b cs).mem_iff.mp hy) with h1 | h1
      · rw [show y = b from h1]; omega
      · exact hhead y h1

lemma foldl_insertBlockDesc_sorted (l acc : List (Nat × Nat))
    (ha : acc.Pairwise (fun x y => y.1 ≤ x.1)) :
    (l.foldl (fun a b => insertBlockDesc b a) acc).Pairwise
      (fun x y => y.1 ≤ x.1) := by
  induction l generalizing acc with
  | nil => exact ha
  | cons b bs ih => exact ih _ (insertBlockDesc_sorted b acc ha)

lemma sortBlocksDesc_sorted (bs : List (Nat × Nat)) :
    (sortBlocksDesc bs).Pairwise (fun x y => y.1 ≤ x.1) :=
  foldl_insertBlockDesc_sorted bs [] List.Pairwise.nil

lemma pairwise_strict_of_nodup (l : List (Nat × Nat))
    (hs : l.Pairwise (fun x y => y.1 ≤ x.1)) (hn : (l.map (·.1)).Nodup) :
    l.Pairwise (fun x y => y.1 < x.1) := by
  have hn' : l.Pairwise (fun x y => x.1 ≠ y.1) := List.pairwise_map.mp hn
  have hand := hs.and hn'
  exact hand.imp (fun hab => by omega)

lemma blocksOk_of_sorted : ∀ (bs : List (Nat × Nat)) (len : Nat),
    bs.Pairwise (fun x y => y.1 < x.1) →
    (∀ b ∈ bs, b.1 < b.2 ∧ b.2 ≤ len) →
    (∀ b ∈ bs, ∀ c ∈ bs, c.1 < b.1 → c.2 ≤ b.1) →
    blocksOk len bs := by
  intro bs
  induction bs with
  | nil => intro len _ _ _; trivial
  | cons b rest ih =>
    intro len hs hb hd
    obtain ⟨hhead, hrest⟩ := List.pairwise_cons.mp hs
    unfold blocksOk
    refine ⟨(hb b (List.mem_cons_self _ _)).1, (hb b (List.mem_cons_self _ _)).2,
      ?_, ?_⟩
    · intro c hc
      exact hd b (List.mem_cons_self _ _) c (List.mem_cons_of_mem _ hc) (hhead c hc)
    · apply ih b.1 hrest
      · intro c hc
        exact ⟨(hb c (List.mem_cons_of_mem _ hc)).1,
          hd b (List.mem_cons_self _ _) c (List.mem_cons_of_mem _ hc) (hhead c hc)⟩
      · intro x hx c hc hlt
        exact hd x (List.mem_cons_of_mem _ hx) c (List.mem_cons_of_mem _ hc) hlt

/-! ## Locate-loop facts -/

lemma findFirstIdx_some_spec (p : String → Bool) (lines : List String) (i : Nat)
    (h : findFirstIdx p lines = some i) :
    i < lines.length ∧ p (lines.getD i "") = true := by
  unfold findFirstIdx at h
  constructor
  · exact List.mem_range.mp (List.mem_of_find?_eq_some h)
  · have h3 := List.find?_some h
    simpa using h3

lemma findFirstIdx_none_spec (p : String → Bool) (lines : List String)
    (h : findFirstIdx p lines = none) (l : String) (hl : l ∈ lines) :
    p l = false := by
  unfold findFirstIdx at h
  obtain ⟨n, hn, he⟩ := List.getElem_of_mem hl
  have h2 := List.find?_eq_none.mp h n (List.mem_range.mpr hn)
  rw [List.getD_eq_getElem lines "" hn, he] at h2
  exact Bool.eq_false_iff.mpr h2

lemma findFirstIdx_none_of (p : String → Bool) (lines : List String)
    (h : ∀ l ∈ lines, p l = false) : findFirstIdx p lines = none := by
  unfold findFirstIdx
  apply List.find?_eq_none.mpr
  intro i hi
  have hilen := List.mem_range.mp hi
  have hmem : lines.getD i "" ∈ lines := by
    rw [List.getD_eq_getElem lines "" hilen]
    exact List.getElem_mem hilen
  have hp := h _ hmem
  intro hcontra
  have hcontra2 : p (lines.getD i "") = true := hcontra
  rw [hp] at hcontra2
  exact Bool.noConfusion hcontra2

lemma locateItems_blocks_mem (lines : List String) (items : List Item) :
    ∀ b ∈ (locateItems lines items).1, ∃ it ∈ items,
      findFirstIdx (itemPattern it) lines = some b.1 ∧
      b = find_block_range lines b.1 := by
  induction items with
  | nil => intro b hb; cases hb
  | cons a rest ih =>
    intro b hb
    unfold locateItems at hb
    cases hf : findFirstIdx (itemPattern a) lines with
    | some i =>
      rw [hf] at hb
      rcases List.mem_cons.mp hb with h1 | h1
      · subst h1
        exact ⟨a, List.mem_cons_self _ _, hf, rfl⟩
      · obtain ⟨it, hm, h2, h3⟩ := ih b h1
        exact ⟨it, List.mem_cons_of_mem _ hm, h2, h3⟩
    | none =>
      rw [hf] at hb
      obtain ⟨it, hm, h2, h3⟩ := ih b hb
      exact ⟨it, List.mem_cons_of_mem _ hm, h2, h3⟩

lemma locateItems_found_block (lines : List String) (items : List Item)
    (it : Item) (hit : it ∈ items) (i : Nat)
    (hf : findFirstIdx (itemPattern it) lines = some i) :
    find_block_range lines i ∈ (locateItems lines items).1 := by
  induction items with
  | nil => cases hit
  | cons a rest ih =>
    unfold locateItems
    rcases List.mem_cons.mp hit with h1 | h1
    · subst h1
      rw [hf]
      exact List.mem_cons_self _ _
    · cases hfa : findFirstIdx (itemPattern a) lines with
      | some ja => exact List.mem_cons_of_mem _ (ih h1)
      | none => exact ih h1

lemma locateItems_blocks_nil (lines : List String) (items : List Item)
    (h : (locateItems lines items).1 = []) :
    ∀ it ∈ items, findFirstIdx (itemPattern it) lines = none := by
  induction items with
  | nil => intro it hit; cases hit
  | cons a rest ih =>
    intro it hit
    unfold locateItems at h
    cases hf : findFirstIdx (itemPattern a) lines with
    | some i =>
      rw [hf] at h
      simp at h
    | none =>
      rw [hf] at h
      rcases List.mem_cons.mp hit with h1 | h1
      · rw [h1]; exact hf
      · exact ih h it h1

lemma locateItems_all_none (lines : List String) (items : List Item)
    (h : ∀ it ∈ items, findFirstIdx (itemPattern it) lines = none) :
    locateItems lines items = ([], [], items.map (fun it =>
      ⟨it.table, it.name, it.item_type, it.block_type, "Not found in TMDL"⟩)) := by
  induction items with
  | nil => rfl
  | cons a rest ih =>
    unfold locateItems
    rw [h a (List.mem_cons_self _ _),
      ih (fun it hit => h it (List.mem_cons_of_mem _ hit))]
    rfl

/-! ## Cascade-block facts -/

lemma cascadeHier_mem (tableName : String) (lines : List String)
    (removedColNames : List String) (existingStarts : List Nat) :
    ∀ x ∈ cascadeHier tableName lines removedColNames existingStarts,
      x.1.1 < lines.length ∧ hierarchyStartB (lines.getD x.1.1 "") = true ∧
      existingStarts.contains x.1.1 = false ∧
      x.1 = find_block_range lines x.1.1 := by
  intro x hx
  unfold cascadeHier at hx
  obtain ⟨i, hi, hfi⟩ := List.mem_filterMap.mp hx
  have hilen := List.mem_range.mp hi
  dsimp only at hfi
  by_cases hh : (hierarchyStartB (lines.getD i "")
      && !(existingStarts.contains i)) = true
  · rw [if_pos hh] at hfi
    obtain ⟨hh1, hh2⟩ := Bool.and_eq_true_iff.mp hh
    split at hfi
    · have hx1 := (Option.some.inj hfi).symm
      have hx11 : x.1 = find_block_range lines i := by rw [hx1]
      have hx12 : x.1.1 = i := by rw [hx11]; rfl
      rw [hx12]
      have hc : existingStarts.contains i = false := by simpa using hh2
      exact ⟨hilen, hh1, hc, by rw [hx11]⟩
    · exact Option.noConfusion hfi
  · rw [if_neg hh] at hfi
    exact Option.noConfusion hfi

lemma containsNat_iff_mem (l : List Nat) (a : Nat) : l.contains a = true ↔ a ∈ l := by
  simp [List.contains, List.elem_iff]

lemma filterMap_map_nodup {α : Type} (l : List Nat) (hl : l.Nodup)
    (f : Nat → Option α) (g : α → Nat)
    (h : ∀ i x, f i = some x → g x = i) : ((l.filterMap f).map g).Nodup := by
  induction l with
  | nil => exact List.nodup_nil
  | cons a rest ih =>
    rw [List.filterMap_cons]
    cases hf : f a with
    | none => exact ih hl.of_cons
    | some x =>
      rw [List.map_cons]
      apply List.nodup_cons.mpr
      refine ⟨?_, ih hl.of_cons⟩
      intro hmem
      obtain ⟨y, hy, hgy⟩ := List.mem_map.mp hmem
      obtain ⟨b, hb, hfb⟩ := List.mem_filterMap.mp hy
      have h1 := h b y hfb
      have h2 := h a x hf
      rw [h1, h2] at hgy
      exact (List.nodup_cons.mp hl).1 (hgy ▸ hb)

lemma cascadeHier_starts_nodup (tableName : String) (lines : List String)
    (removedColNames : List String) (existingStarts : List Nat) :
    ((cascadeHier tableName lines removedColNames existingStarts).map
      (·.1.1)).Nodup := by
  unfold cascadeHier
  apply filterMap_map_nodup _ (List.nodup_range _)
  intro i x hfi
  dsimp only at hfi
  by_cases hh : (hierarchyStartB (lines.getD i "")
      && !(existingStarts.contains i)) = true
  · rw [if_pos hh] at hfi
    split at hfi
    · have hx1 := (Option.some.inj hfi).symm
      rw [hx1]
      rfl
    · exact Option.noConfusion hfi
  · rw [if_neg hh] at hfi
    exact Option.noConfusion hfi

/-! ## The spliced block set of `remove_blocks_from_tmdl` -/

/-- The block ranges spliced out of one file by `remove_blocks_from_tmdl`:
the located items' blocks plus the cascaded hierarchy blocks. -/
def rbBlocks (tableName : String) (lines : List String) (items : List Item) :
    List (Nat × Nat) :=
  let loc := locateItems lines items
  let removedColNames :=
    ((loc.2.1).filter (fun it => it.block_type = "column")).map (·.name)
  let casc := if removedColNames.isEmpty then []
    else cascadeHier tableName lines removedColNames ((loc.1).map (·.1))
  loc.1 ++ casc.map (·.1)

lemma remove_blocks_eq_found (tableName : String) (lines : List String)
    (items : List Item) (h : (locateItems lines items).1.isEmpty = false) :
    (remove_blocks_from_tmdl tableName lines items).newLines
      = applyBlocksDesc lines (sortBlocksDesc (rbBlocks tableName lines items)) := by
  unfold remove_blocks_from_tmdl rbBlocks
  dsimp only
  rw [if_neg (by simp [h])]

lemma remove_blocks_wrote_false (tableName : String) (lines : List String)
    (items : List Item) (h : (locateItems lines items).1.isEmpty = true) :
    (remove_blocks_from_tmdl tableName lines items).newLines = lines
    ∧ (remove_blocks_from_tmdl tableName lines items).wroteFile = false := by
  unfold remove_blocks_from_tmdl
  dsimp only
  rw [if_pos h]
  exact ⟨rfl, rfl⟩

lemma rbBlocks_prop (tableName : String) (lines : List String)
    (items : List Item) :
    ∀ b ∈ rbBlocks tableName lines items, b.1 < lines.length ∧
      siblingLine (lines.getD b.1 "") = true ∧
      b.2 = findBlockEndAux lines lines.length (b.1 + 1) := by
  intro b hb
  unfold rbBlocks at hb
  dsimp only at hb
  rcases List.mem_append.mp hb with h1 | h1
  · obtain ⟨it, _, hf, hbr⟩ := locateItems_blocks_mem lines items b h1
    obtain ⟨hlt, hpat⟩ := findFirstIdx_some_spec _ _ _ hf
    exact ⟨hlt, itemPattern_sibling _ _ hpat, congrArg Prod.snd hbr⟩
  · split at h1
    · simp at h1
    · obtain ⟨x, hx, hxb⟩ := List.mem_map.mp h1
      obtain ⟨hlt, hhier, _, hxr⟩ := cascadeHier_mem _ _ _ _ x hx
      subst hxb
      exact ⟨hlt, hierarchyStartB_sibling _ hhier, congrArg Prod.snd hxr⟩

lemma rbBlocks_starts_nodup (tableName : String) (lines : List String)
    (items : List Item)
    (hN : (((locateItems lines items).1).map (·.1)).Nodup) :
    ((rbBlocks tableName lines items).map (·.1)).Nodup := by
  unfold rbBlocks
  dsimp only
  rw [List.map_append]
  apply List.Nodup.append hN
  · split
    · simp
    · rw [List.map_map]
      exact cascadeHier_starts_nodup _ _ _ _
  · intro a ha hb2
    split at hb2
    · simp at hb2
    · rw [List.map_map] at hb2
      obtain ⟨x, hx, hxa⟩ := List.mem_map.mp hb2
      obtain ⟨_, _, hc, _⟩ := cascadeHier_mem _ _ _ _ x hx
      rw [show ((·.1) ∘ (·.1) : (Nat × Nat) × Item → Nat) x = x.1.1 from rfl] at hxa
      rw [hxa] at hc
      rw [(containsNat_iff_mem _ _).mpr ha] at hc
      exact Bool.noConfusion hc

lemma rbBlocks_cov (tableName : String) (lines : List String) (items : List Item)
    (it : Item) (hit : it ∈ items) (i : Nat)
    (hf : findFirstIdx (itemPattern it) lines = some i) :
    ∃ b ∈ rbBlocks tableName lines items, b.1 = i := by
  refine ⟨find_block_range lines i, ?_, rfl⟩
  unfold rbBlocks
  dsimp only
  exact List.mem_append_left _ (locateItems_found_block lines items it hit i hf)

lemma no_match_of_blocks (lines : List String) (blocks : List (Nat × Nat))
    (hprop : ∀ b ∈ blocks, b.1 < lines.length ∧
      siblingLine (lines.getD b.1 "") = true ∧
      b.2 = findBlockEndAux lines lines.length (b.1 + 1))
    (hnod : (blocks.map (·.1)).Nodup)
    (it : Item) (i : Nat)
    (hfi : findFirstIdx (itemPattern it) lines = some i)
    (hcov : ∃ b ∈ blocks, b.1 = i)
    (hU : ∀ j k, j < lines.length → k < lines.length →
      itemPattern it (lines.getD j "") = true →
      itemPattern it (lines.getD k "") = true → j = k)
    (l : String) (hl : l ∈ applyBlocksDesc lines (sortBlocksDesc blocks)) :
    itemPattern it l = false := by
  have hperm := sortBlocksDesc_perm blocks
  have hsorted := sortBlocksDesc_sorted blocks
  have hnod' : ((sortBlocksDesc blocks).map (·.1)).Nodup :=
    ((hperm.map (·.1)).nodup_iff).mpr hnod
  have hstrict := pairwise_strict_of_nodup _ hsorted hnod'
  have hprop' : ∀ b ∈ sortBlocksDesc blocks, b.1 < lines.length ∧
      siblingLine (lines.getD b.1 "") = true ∧
      b.2 = findBlockEndAux lines lines.length (b.1 + 1) :=
    fun b hb => hprop b (hperm.mem_iff.mp hb)
  have hOk : blocksOk lines.length (sortBlocksDesc blocks) := by
    apply blocksOk_of_sorted _ _ hstrict
    · intro b hb
      obtain ⟨hb1, _, hb3⟩ := hprop' b hb
      have hge := findBlockEndAux_ge lines lines.length (b.1 + 1)
      have hle := findBlockEndAux_le lines lines.length (b.1 + 1) hb1
      omega
    · intro b hb c hc hlt
      obtain ⟨hb1, hb2, _⟩ := hprop' b hb
      obtain ⟨hc1, _, hc3⟩ := hprop' c hc
      rw [hc3]
      exact findBlockEndAux_le_sibling lines lines.length (c.1 + 1) b.1
        hlt (by omega) hb1 hb2
  obtain ⟨k, hk1, hk2, hk3⟩ := applyBlocksDesc_mem lines _ hOk l hl
  cases hpl : itemPattern it l
  · rfl
  · exfalso
    obtain ⟨hi1, hi2⟩ := findFirstIdx_some_spec _ _ _ hfi
    have hki : k = i := hU k i hk1 hi1 (by rw [← hk3]; exact hpl) hi2
    obtain ⟨b, hbm, hbi⟩ := hcov
    obtain ⟨hb1, _, hb3⟩ := hprop b hbm
    have hge := findBlockEndAux_ge lines lines.length (b.1 + 1)
    have hcovk : coveredBy (sortBlocksDesc blocks) k = true := by
      apply coveredBy_of_mem _ b (hperm.mem_iff.mpr hbm)
      · omega
      · omega
    rw [hk2] at hcovk
    exact Bool.noConfusion hcovk

/-- After `remove_blocks_from_tmdl`, no line matching any of the removal
items' declaration patterns survives in the rewritten file, provided each
pattern matched at most one line and the located blocks had distinct
starts. -/
theorem remove_blocks_no_match (tableName : String) (lines : List String)
    (items : List Item)
    (hU : ∀ it ∈ items, ∀ j k, j < lines.length → k < lines.length →
      itemPattern it (lines.getD j "") = true →
      itemPattern it (lines.getD k "") = true → j = k)
    (hN : (((locateItems lines items).1).map (·.1)).Nodup) :
    ∀ it ∈ items, ∀ l ∈ (remove_blocks_from_tmdl tableName lines items).newLines,
      itemPattern it l = false := by
  intro it hit l hl
  by_cases hbe : (locateItems lines items).1.isEmpty = true
  · rw [(remove_blocks_wrote_false tableName lines items hbe).1] at hl
    exact findFirstIdx_none_spec _ _
      (locateItems_blocks_nil lines items (List.isEmpty_iff.mp hbe) it hit) l hl
  · rw [remove_blocks_eq_found tableName lines items
      (Bool.eq_false_iff.mpr hbe)] at hl
    cases hfi : findFirstIdx (itemPattern it) lines with
    | none =>
      exact findFirstIdx_none_spec _ _ hfi l (applyBlocksDesc_subset _ _ _ hl)
    | some i =>
      exact no_match_of_blocks lines (rbBlocks tableName lines items)
        (rbBlocks_prop tableName lines items)
        (rbBlocks_starts_nodup tableName lines items hN)
        it i hfi (rbBlocks_cov tableName lines items it hit i hfi)
        (hU it hit) l hl

lemma remove_blocks_all_none (tableName : String) (lines : List String)
    (items : List Item)
    (h : ∀ it ∈ items, findFirstIdx (itemPattern it) lines = none) :
    remove_blocks_from_tmdl tableName lines items
      = ⟨0, [], items.map (fun it =>
          ⟨it.table, it.name, it.item_type, it.block_type, "Not found in TMDL"⟩),
          [], lines, false⟩ := by
  unfold remove_blocks_from_tmdl
  rw [locateItems_all_none lines items h]
  rfl

/-! ## Per-table mutation characterization -/

/-- The removal items of one table's candidate group (lines 869-878). -/
def tableItems (surviving : List F5Row) (t : String) : List Item :=
  (surviving.filter (fun r => r.tableName = t)).map (fun r =>
    ⟨t, r.colName, (_classify_item r.sourceColumn).1,
      (_classify_item r.sourceColumn).2⟩)

/-- The per-file effect of the mutation loop on a present file. -/
def mutFileTransform (surviving : List F5Row) (t : String) (L : List String) :
    List String :=
  let res := remove_blocks_from_tmdl t L (tableItems surviving t)
  if res.wroteFile then res.newLines else L

lemma mutateStep_find_self (surviving : List F5Row) (st : MutateState)
    (t : String) :
    fsFind (mutateStep surviving st t).fs t
      = (fsFind st.fs t).map (mutFileTransform surviving t) := by
  unfold mutateStep mutFileTransform tableItems
  cases hf : fsFind st.fs t with
  | none => exact hf
  | some L =>
    dsimp only [Option.map]
    split
    · rw [fsFind_update_self st.fs t _ (by rw [hf]; rfl)]
    · exact hf

lemma mutateStep_find_other (surviving : List F5Row) (st : MutateState)
    (t m : String) (hm : m ≠ t) :
    fsFind (mutateStep surviving st t).fs m = fsFind st.fs m := by
  unfold mutateStep
  cases fsFind st.fs t with
  | none => rfl
  | some L =>
    dsimp only
    split
    · exact fsFind_update_other _ _ _ _ hm
    · rfl

lemma foldM_find (surviving : List F5Row) (TS : List String) (st : MutateState)
    (hnd : TS.Nodup) :
    (∀ t ∈ TS, fsFind ((TS.foldl (mutateStep surviving) st)).fs t
        = (fsFind st.fs t).map (mutFileTransform surviving t))
    ∧ (∀ n, n ∉ TS →
        fsFind ((TS.foldl (mutateStep surviving) st)).fs n = fsFind st.fs n) := by
  induction TS generalizing st with
  | nil => exact ⟨by simp, fun n _ => rfl⟩
  | cons t rest ih =>
    have hnd' : rest.Nodup := hnd.of_cons
    have htn : t ∉ rest := (List.nodup_cons.mp hnd).1
    obtain ⟨ih1, ih2⟩ := ih (mutateStep surviving st t) hnd'
    constructor
    · intro u hu
      rw [List.foldl_cons]
      rcases List.mem_cons.mp hu with h1 | h1
      · rw [h1, ih2 t htn, mutateStep_find_self]
      · rw [ih1 u h1, mutateStep_find_other surviving st t u
          (fun he => htn (he ▸ h1))]
    · intro n hn
      have hn1 : n ≠ t := fun he => hn (by rw [he]; exact List.mem_cons_self _ _)
      have hn2 : n ∉ rest := fun he => hn (List.mem_cons_of_mem _ he)
      rw [List.foldl_cons, ih2 n hn2, mutateStep_find_other surviving st t n hn1]

lemma groupTables_nodup (cand : List F5Row) : (groupTables cand).Nodup := by
  unfold groupTables
  exact ((sortStrings_perm _).nodup_iff).mpr (List.nodup_dedup _)

lemma groupTables_mem (cand : List F5Row) (r : F5Row) (hr : r ∈ cand) :
    r.tableName ∈ groupTables cand := by
  unfold groupTables
  apply (sortStrings_perm _).mem_iff.mpr
  exact List.mem_dedup.mpr (List.mem_map_of_mem (·.tableName) hr)

lemma mutateTables_find (fs0 : FS) (surviving : List F5Row) (t : String)
    (ht : t ∈ groupTables surviving) :
    fsFind (mutateTables fs0 surviving).fs t
      = (fsFind fs0 t).map (mutFileTransform surviving t) := by
  unfold mutateTables
  exact (foldM_find surviving (groupTables surviving) ⟨fs0, [], [], [], []⟩
    (groupTables_nodup _)).1 t ht

lemma remove_blocks_wrote_iff (tableName : String) (lines : List String)
    (items : List Item) :
    (remove_blocks_from_tmdl tableName lines items).wroteFile
      = !(locateItems lines items).1.isEmpty := by
  unfold remove_blocks_from_tmdl
  dsimp only
  by_cases h : (locateItems lines items).1.isEmpty = true
  · rw [if_pos h, h]
    rfl
  · rw [if_neg h, Bool.eq_false_iff.mpr h]
    rfl

/-- Every line of the per-file mutation output fails every removal item's
pattern (under uniqueness of the matches and distinctness of the located
starts). -/
lemma mutFileTransform_no_match (surviving : List F5Row) (t : String)
    (L : List String)
    (hU : ∀ it ∈ tableItems surviving t, ∀ j k, j < L.length → k < L.length →
      itemPattern it (L.getD j "") = true →
      itemPattern it (L.getD k "") = true → j = k)
    (hN : (((locateItems L (tableItems surviving t)).1).map (·.1)).Nodup) :
    ∀ it ∈ tableItems surviving t, ∀ l ∈ mutFileTransform surviving t L,
      itemPattern it l = false := by
  intro it hit l hl
  unfold mutFileTransform at hl
  dsimp only at hl
  by_cases hw : (remove_blocks_from_tmdl t L (tableItems surviving t)).wroteFile
      = true
  · rw [if_pos hw] at hl
    exact remove_blocks_no_match t L (tableItems surviving t) hU hN it hit l hl
  · rw [if_neg hw] at hl
    have hw2 := remove_blocks_wrote_iff t L (tableItems surviving t)
    have hbe : (locateItems L (tableItems surviving t)).1.isEmpty = true := by
      rcases Bool.eq_false_or_eq_true
        ((locateItems L (tableItems surviving t)).1.isEmpty) with h1 | h1
      · exact h1
      · exfalso
        rw [h1] at hw2
        exact hw (by simpa using hw2)
    exact findFirstIdx_none_spec _ _
      (locateItems_blocks_nil L (tableItems surviving t)
        (List.isEmpty_iff.mp hbe) it hit) l hl

/-! ## The second-run mutation loop is inert -/

lemma mutateStep_noop (surviving : List F5Row) (st : MutateState) (t : String)
    (hnone : ∀ L, fsFind st.fs t = some L →
      ∀ it ∈ tableItems surviving t, findFirstIdx (itemPattern it) L = none) :
    (mutateStep surviving st t).fs = st.fs
    ∧ (mutateStep surviving st t).backups = st.backups
    ∧ (mutateStep surviving st t).removed = st.removed
    ∧ (mutateStep surviving st t).deletedHier = st.deletedHier
    ∧ (∀ sk ∈ (mutateStep surviving st t).skipped, sk ∈ st.skipped
        ∨ sk.reason = "Not found in TMDL" ∨ sk.reason = "TMDL file not found")
    ∧ (∀ r ∈ surviving.filter (fun r => r.tableName = t),
        ∃ sk ∈ (mutateStep surviving st t).skipped, sk.table = t
          ∧ sk.name = r.colName
          ∧ (sk.reason = "Not found in TMDL" ∨ sk.reason = "TMDL file not found")) := by
  unfold mutateStep
  cases hf : fsFind st.fs t with
  | none =>
    dsimp only
    refine ⟨rfl, rfl, rfl, rfl, ?_, ?_⟩
    · intro sk hsk
      rcases List.mem_append.mp hsk with h1 | h1
      · exact Or.inl h1
      · obtain ⟨r, _, hre⟩ := List.mem_map.mp h1
        right; right
        rw [← hre]
    · intro r hr
      refine ⟨⟨t, r.colName, (_classify_item r.sourceColumn).1, "column",
        "TMDL file not found"⟩, ?_, rfl, rfl, Or.inr rfl⟩
      exact List.mem_append_right _ (List.mem_map_of_mem _ hr)
  | some L =>
    have hall := hnone L hf
    dsimp only
    rw [show (surviving.filter (fun r => r.tableName = t)).map (fun r =>
        (⟨t, r.colName, (_classify_item r.sourceColumn).1,
          (_classify_item r.sourceColumn).2⟩ : Item)) = tableItems surviving t
        from rfl]
    rw [remove_blocks_all_none t L (tableItems surviving t) hall]
    refine ⟨rfl, rfl, by simp, by simp, ?_, ?_⟩
    · intro sk hsk
      rcases List.mem_append.mp hsk with h1 | h1
      · exact Or.inl h1
      · obtain ⟨it, _, hre⟩ := List.mem_map.mp h1
        right; left
        rw [← hre]
    · intro r hr
      refine ⟨⟨t, r.colName, (_classify_item r.sourceColumn).1,
        (_classify_item r.sourceColumn).2, "Not found in TMDL"⟩, ?_, rfl, rfl,
        Or.inl rfl⟩
      apply List.mem_append_right
      apply List.mem_map.mpr
      refine ⟨⟨t, r.colName, (_classify_item r.sourceColumn).1,
        (_classify_item r.sourceColumn).2⟩, ?_, rfl⟩
      exact List.mem_map_of_mem _ hr

lemma mutateStep_skipped_mono (surviving : List F5Row) (st : MutateState)
    (t : String) (sk : Skipped) (h : sk ∈ st.skipped) :
    sk ∈ (mutateStep surviving st t).skipped := by
  unfold mutateStep
  cases fsFind st.fs t with
  | none => exact List.mem_append_left _ h
  | some L => exact List.mem_append_left _ h

lemma foldM_skipped_mono (surviving : List F5Row) (TS : List String)
    (st : MutateState) (sk : Skipped) (h : sk ∈ st.skipped) :
    sk ∈ ((TS.foldl (mutateStep surviving) st)).skipped := by
  induction TS generalizing st with
  | nil => exact h
  | cons t rest ih =>
    rw [List.foldl_cons]
    exact ih _ (mutateStep_skipped_mono surviving st t sk h)

lemma foldM_noop (surviving : List F5Row) (TS : List String) (st : MutateState)
    (hnone : ∀ t ∈ TS, ∀ L, fsFind st.fs t = some L →
      ∀ it ∈ tableItems surviving t, findFirstIdx (itemPattern it) L = none) :
    (TS.foldl (mutateStep surviving) st).fs = st.fs
    ∧ (TS.foldl (mutateStep surviving) st).backups = st.backups
    ∧ (TS.foldl (mutateStep surviving) st).removed = st.removed
    ∧ (TS.foldl (mutateStep surviving) st).deletedHier = st.deletedHier
    ∧ (∀ sk ∈ (TS.foldl (mutateStep surviving) st).skipped,
        sk ∈ st.skipped ∨ sk.reason = "Not found in TMDL"
          ∨ sk.reason = "TMDL file not found")
    ∧ (∀ t ∈ TS, ∀ r ∈ surviving.filter (fun r => r.tableName = t),
        ∃ sk ∈ (TS.foldl (mutateStep surviving) st).skipped,
          sk.table = t ∧ sk.name = r.colName ∧
          (sk.reason = "Not found in TMDL" ∨ sk.reason = "TMDL file not found")) := by
  induction TS generalizing st with
  | nil =>
    exact ⟨rfl, rfl, rfl, rfl, fun sk hsk => Or.inl hsk, by simp⟩
  | cons t rest ih =>
    obtain ⟨s1, s2, s3, s4, s5, s6⟩ :=
      mutateStep_noop surviving st t (hnone t (List.mem_cons_self _ _))
    have hnone' : ∀ u ∈ rest, ∀ L,
        fsFind (mutateStep surviving st t).fs u = some L →
        ∀ it ∈ tableItems surviving u, findFirstIdx (itemPattern it) L = none := by
      intro u hu L hL
      rw [s1] at hL
      exact hnone u (List.mem_cons_of_mem _ hu) L hL
    obtain ⟨i1, i2, i3, i4, i5, i6⟩ := ih (mutateStep surviving st t) hnone'
    rw [List.foldl_cons]
    refine ⟨by rw [i1, s1], by rw [i2, s2], by rw [i3, s3], by rw [i4, s4],
      ?_, ?_⟩
    · intro sk hsk
      rcases i5 sk hsk with h1 | h1 | h1
      · exact s5 sk h1
      · exact Or.inr (Or.inl h1)
      · exact Or.inr (Or.inr h1)
    · intro u hu r hr
      rcases List.mem_cons.mp hu with h1 | h1
      · subst h1
        obtain ⟨sk, hsk, hp1, hp2, hp3⟩ := s6 r hr
        exact ⟨sk, foldM_skipped_mono surviving rest _ sk hsk, hp1, hp2, hp3⟩
      · exact i6 u h1 r hr

/-! ## Surrounding run facts -/

lemma fsFind_none_iff (fs : FS) (n : String) :
    fsFind fs n = none ↔ n ∉ fs.map (·.1) := by
  unfold fsFind
  rw [Option.map_eq_none', List.find?_eq_none]
  constructor
  · intro h hmem
    obtain ⟨p, hp, hpn⟩ := List.mem_map.mp hmem
    exact (h p hp) (by simp [hpn])
  · intro h p hp hcontra
    apply h
    apply List.mem_map.mpr
    exact ⟨p, hp, by simpa using hcontra⟩

lemma prune_fold_noop (L : List (String × List String)) (acc : FS × List Item)
    (h : ∀ p ∈ L, hasDeclContent p.2 = true) : L.foldl pruneStep acc = acc := by
  induction L generalizing acc with
  | nil => rfl
  | cons p rest ih =>
    rw [List.foldl_cons]
    have hstep : pruneStep acc p = acc := by
      unfold pruneStep
      rw [if_pos (h p (List.mem_cons_self _ _))]
    rw [hstep]
    exact ih _ (fun q hq => h q (List.mem_cons_of_mem _ hq))

lemma prune_noop (fs : FS) (h : ∀ p ∈ fs, hasDeclContent p.2 = true) :
    pruneEmptyTables fs = (fs, []) := by
  unfold pruneEmptyTables
  exact prune_fold_noop _ _
    (fun p hp => h p ((fsSorted_perm fs).mem_iff.mp hp))

lemma orphanTransformA_subset (d : List String) (n : String) (L : List String)
    (l : String) (hl : l ∈ orphanTransformA d n L) : l ∈ L := by
  unfold orphanTransformA at hl
  dsimp only at hl
  split at hl
  · exact hl
  · exact applyBlocksDesc_subset _ _ _ hl

lemma markerTransform_subset (L : List String) (l : String)
    (hl : l ∈ markerTransform L) : l ∈ L := by
  unfold markerTransform at hl
  split at hl
  · exact List.mem_of_mem_filter hl
  · exact hl

lemma run_tmdl_cleanup_main (f5 : List F5Row) (fs : FS) (mode : String)
    (hc : (cleanupCandidates f5 mode).isEmpty = false)
    (hs : (survivingCandidates f5 fs mode).isEmpty = false) :
    run_tmdl_cleanup f5 fs mode =
      ⟨(pruneEmptyTables (prePruneState f5 fs mode).fs).1,
       (mutateTables fs (survivingCandidates f5 fs mode)).removed
         ++ (prePruneState f5 fs mode).items
         ++ (pruneEmptyTables (prePruneState f5 fs mode).fs).2,
       cleanupProtSkips f5 fs mode
         ++ (mutateTables fs (survivingCandidates f5 fs mode)).skipped,
       (prePruneState f5 fs mode).backups⟩ := by
  unfold run_tmdl_cleanup
  rw [if_neg (by simp [hc]), if_neg (by simp [hs])]

/-- C4 (amended): over a directory with distinct file names, provided the
protection computation of the second run yields the same surviving
candidate set, each surviving candidate's declaration pattern matches at
most one line of its table's original file, and the blocks located in each
file have distinct start lines, a second run of `run_tmdl_cleanup` over the
already-mutated directory locates zero remaining candidate blocks: it
removes nothing, leaves every file unchanged, creates no backup, deletes no
file, and reports every surviving candidate as skipped with reason
"Not found in TMDL" (block no longer present) or "TMDL file not found"
(file pruned by the first run). -/
theorem c4_second_run_inert (f5 : List F5Row) (fs : FS) (mode : String)
    (hnd : nodupNames fs)
    (hc : (cleanupCandidates f5 mode).isEmpty = false)
    (hs : (survivingCandidates f5 fs mode).isEmpty = false)
    (hstab : survivingCandidates f5 (run_tmdl_cleanup f5 fs mode).fs mode
      = survivingCandidates f5 fs mode)
    (hU : ∀ t ∈ groupTables (survivingCandidates f5 fs mode), ∀ L,
      fsFind fs t = some L →
      ∀ it ∈ tableItems (survivingCandidates f5 fs mode) t,
        ∀ j k, j < L.length → k < L.length →
          itemPattern it (L.getD j "") = true →
          itemPattern it (L.getD k "") = true → j = k)
    (hN : ∀ t ∈ groupTables (survivingCandidates f5 fs mode), ∀ L,
      fsFind fs t = some L →
      (((locateItems L
        (tableItems (survivingCandidates f5 fs mode) t)).1).map (·.1)).Nodup) :
    (run_tmdl_cleanup f5 (run_tmdl_cleanup f5 fs mode).fs mode).fs
      = (run_tmdl_cleanup f5 fs mode).fs
    ∧ (run_tmdl_cleanup f5 (run_tmdl_cleanup f5 fs mode).fs mode).removed = []
    ∧ (run_tmdl_cleanup f5 (run_tmdl_cleanup f5 fs mode).fs mode).backups = []
    ∧ (∀ r ∈ survivingCandidates f5 fs mode,
        ∃ sk ∈ (run_tmdl_cleanup f5 (run_tmdl_cleanup f5 fs mode).fs mode).skipped,
          sk.table = r.tableName ∧ sk.name = r.colName ∧
          (sk.reason = "Not found in TMDL" ∨ sk.reason = "TMDL file not found")) := by
  have hrun1 := run_tmdl_cleanup_main f5 fs mode hc hs
  have hnd1 : nodupNames (mutateTables fs (survivingCandidates f5 fs mode)).fs := by
    unfold nodupNames
    rw [mutateTables_names]
    exact hnd
  have hndpre : nodupNames (prePruneState f5 fs mode).fs := by
    unfold nodupNames
    rw [prePrune_names]
    exact hnd
  have hfs1 : (run_tmdl_cleanup f5 fs mode).fs
      = (prePruneState f5 fs mode).fs.filter (fun p => hasDeclContent p.2) := by
    rw [hrun1]
    exact prune_fst_of_nodup _ hndpre
  have hkey : ∀ t ∈ groupTables (survivingCandidates f5 fs mode), ∀ M,
      fsFind (run_tmdl_cleanup f5 fs mode).fs t = some M →
      ∀ it ∈ tableItems (survivingCandidates f5 fs mode) t,
        findFirstIdx (itemPattern it) M = none := by
    intro t ht M hM it hit
    have hMpre : fsFind (prePruneState f5 fs mode).fs t = some M := by
      rw [hfs1] at hM
      have hmem := fsFind_some_mem _ _ _ hM
      exact fsFind_of_mem_nodup hndpre (List.mem_filter.mp hmem).1
    cases hft : fsFind fs t with
    | none =>
      exfalso
      have hn1 : t ∉ fs.map (·.1) := (fsFind_none_iff fs t).mp hft
      have hn2 : t ∉ (prePruneState f5 fs mode).fs.map (·.1) := by
        rw [prePrune_names]; exact hn1
      have hcontra := (fsFind_none_iff _ t).mpr hn2
      rw [hMpre] at hcontra
      exact Option.noConfusion hcontra
    | some L =>
      have hst : fsFind (mutateTables fs (survivingCandidates f5 fs mode)).fs t
          = some (mutFileTransform (survivingCandidates f5 fs mode) t L) := by
        rw [mutateTables_find fs _ t ht, hft]
        rfl
      have hMsub : ∀ l ∈ M,
          l ∈ mutFileTransform (survivingCandidates f5 fs mode) t L := by
        unfold prePruneState at hMpre
        dsimp only at hMpre
        split at hMpre
        · rw [hst] at hMpre
          have hMeq := Option.some.inj hMpre
          intro l hl
          rw [← hMeq] at hl
          exact hl
        · rename_i hcase
          have hne : (mutateTables fs
              (survivingCandidates f5 fs mode)).deletedHier ≠ [] :=
            fun he => hcase (by rw [he]; rfl)
          have horph := orphan_find
            (mutateTables fs (survivingCandidates f5 fs mode)).fs
            (mutateTables fs (survivingCandidates f5 fs mode)).backups
            (mutateTables fs (survivingCandidates f5 fs mode)).deletedHier
            hnd1 hne t _ hst
          rw [horph] at hMpre
          have hMeq := Option.some.inj hMpre
          intro l hl
          rw [← hMeq] at hl
          split at hl
          · exact orphanTransformA_subset _ _ _ l (markerTransform_subset _ l hl)
          · exact orphanTransformA_subset _ _ _ l hl
      have hnomatch := mutFileTransform_no_match (survivingCandidates f5 fs mode)
        t L (hU t ht L hft) (hN t ht L hft)
      apply findFirstIdx_none_of
      intro l hl
      exact hnomatch it hit l (hMsub l hl)
  have hs1 : (survivingCandidates f5 (run_tmdl_cleanup f5 fs mode).fs
      mode).isEmpty = false := by rw [hstab]; exact hs
  have hrun2 := run_tmdl_cleanup_main f5 (run_tmdl_cleanup f5 fs mode).fs mode
    hc hs1
  rw [hstab] at hrun2
  obtain ⟨m1, m2, m3, m4, m5, m6⟩ := foldM_noop (survivingCandidates f5 fs mode)
    (groupTables (survivingCandidates f5 fs mode))
    ⟨(run_tmdl_cleanup f5 fs mode).fs, [], [], [], []⟩ hkey
  have m1' : (mutateTables (run_tmdl_cleanup f5 fs mode).fs
      (survivingCandidates f5 fs mode)).fs = (run_tmdl_cleanup f5 fs mode).fs := m1
  have m2' : (mutateTables (run_tmdl_cleanup f5 fs mode).fs
      (survivingCandidates f5 fs mode)).backups = [] := m2
  have m3' : (mutateTables (run_tmdl_cleanup f5 fs mode).fs
      (survivingCandidates f5 fs mode)).removed = [] := m3
  have m4' : (mutateTables (run_tmdl_cleanup f5 fs mode).fs
      (survivingCandidates f5 fs mode)).deletedHier = [] := m4
  have hpre2 : prePruneState f5 (run_tmdl_cleanup f5 fs mode).fs mode
      = ⟨(run_tmdl_cleanup f5 fs mode).fs, [], []⟩ := by
    unfold prePruneState
    rw [hstab]
    dsimp only
    rw [m4', m1', m2']
    rfl
  have hprune2 : pruneEmptyTables (run_tmdl_cleanup f5 fs mode).fs
      = ((run_tmdl_cleanup f5 fs mode).fs, []) := by
    apply prune_noop
    intro p hp
    rw [hfs1] at hp
    exact (List.mem_filter.mp hp).2
  refine ⟨?_, ?_, ?_, ?_⟩
  · rw [hrun2]
    dsimp only
    rw [hpre2]
    dsimp only
    rw [hprune2]
  · rw [hrun2]
    dsimp only
    rw [hpre2, m3']
    dsimp only
    rw [hprune2]
    rfl
  · rw [hrun2]
    dsimp only
    rw [hpre2]
  · intro r hr
    have ht := groupTables_mem _ r hr
    have hrgrp : r ∈ (survivingCandidates f5 fs mode).filter
        (fun q => q.tableName = r.tableName) :=
      List.mem_filter.mpr ⟨hr, by simp⟩
    obtain ⟨sk, hsk, hp1, hp2, hp3⟩ := m6 r.tableName ht r hrgrp
    refine ⟨sk, ?_, hp1, hp2, hp3⟩
    rw [hrun2]
    dsimp only
    exact List.mem_append_right _ hsk

/-- C4 counterexample: with a duplicated `column Real` declaration in
`table Other`, the first run removes only the first declaration's block, so
a second run over the already-mutated directory locates the surviving
duplicate, removes it, rewrites and backs up the file — the mutation phase
is not idempotent. -/
theorem c4_counterexample :
    (run_tmdl_cleanup exF5b (run_tmdl_cleanup exF5b exFS2 "all").fs "all").removed
      = [⟨"Other", "Real", "Imported Column", "column"⟩]
    ∧ (run_tmdl_cleanup exF5b (run_tmdl_cleanup exF5b exFS2 "all").fs "all").backups
      = ["Other"]
    ∧ (run_tmdl_cleanup exF5b (run_tmdl_cleanup exF5b exFS2 "all").fs "all").fs
      ≠ (run_tmdl_cleanup exF5b exFS2 "all").fs :=
  ⟨rfl, rfl, by decide⟩

/-- A single-table model with one removal candidate and no duplicated
declarations. -/
def tLinesC4 : List String :=
  ["table T", "\tcolumn Bad", "\t\tdataType: int64",
   "\tcolumn Keep", "\t\tdataType: int64", "\tpartition T = m"]

def exFSc : FS := [("T", tLinesC4)]

/-- Function 5 rows removing `T.Bad` and keeping `T.Keep`. -/
def exF5c : List F5Row :=
  [⟨1, "T", "Bad", "Bad", 0, 0, "Yes", "No"⟩,
   ⟨2, "T", "Keep", "Keep", 1, 0, "No", "No"⟩]

theorem c4_witness :
    (run_tmdl_cleanup exF5c (run_tmdl_cleanup exF5c exFSc "all").fs "all").fs
      = (run_tmdl_cleanup exF5c exFSc "all").fs
    ∧ (run_tmdl_cleanup exF5c (run_tmdl_cleanup exF5c exFSc "all").fs "all").removed
      = []
    ∧ (run_tmdl_cleanup exF5c (run_tmdl_cleanup exF5c exFSc "all").fs "all").backups
      = [] := by
  have hgt : groupTables (survivingCandidates exF5c exFSc "all") = ["T"] := rfl
  have hff : fsFind exFSc "T" = some tLinesC4 := rfl
  have h := c4_second_run_inert exF5c exFSc "all" (by decide) (by decide)
    (by decide) (by decide)
    (by
      intro t ht L hL it hit j k hj hk h1 h2
      rw [hgt, List.mem_singleton] at ht
      subst ht
      rw [hff] at hL
      have hLe := Option.some.inj hL
      subst hLe
      exact (by decide :
        ∀ it ∈ tableItems (survivingCandidates exF5c exFSc "all") "T",
          ∀ j, j < tLinesC4.length → ∀ k, k < tLinesC4.length →
            itemPattern it (tLinesC4.getD j "") = true →
            itemPattern it (tLinesC4.getD k "") = true → j = k)
        it hit j hj k hk h1 h2)
    (by
      intro t ht L hL
      rw [hgt, List.mem_singleton] at ht
      subst ht
      rw [hff] at hL
      have hLe := Option.some.inj hL
      subst hLe
      exact (by decide :
        (((locateItems tLinesC4
          (tableItems (survivingCandidates exF5c exFSc "all") "T")).1).map
            (·.1)).Nodup))
  exact ⟨h.1, h.2.1, h.2.2.1⟩

end PBIAutoGov
